import Mathlib

/-!
Shallow embedding of `matrix_io.py`: a sparse row-oriented matrix format.
Strings are modelled as lists of characters, Python `np.float64` values as
exact decimal numbers (mantissa times a power of ten) together with `nan`
and signed infinities, and the line transport as lists of field lists.
Every definition mirrors the corresponding Python function of the source.
-/

namespace MatrixIO

/-- Text is modelled as a list of characters. -/
abbrev Str := List Char

/-- The character of a decimal digit (only used for `d < 10`). -/
def digitCh (d : Nat) : Char := Char.ofNat (48 + d)

/-- The digit value of a character (only meaningful for digit characters). -/
def chDigit (c : Char) : Nat := c.toNat - 48

/-- Decimal rendering of a natural number, as Python `str` renders it. -/
def natStr (n : Nat) : Str :=
  if n = 0 then ['0'] else ((Nat.digits 10 n).map digitCh).reverse

/-- Value of a big-endian run of digit characters. -/
def digitsVal (s : Str) : Nat :=
  Nat.ofDigits 10 ((s.map chDigit).reverse)

/-- Python `s.split(c, 1)`: the part before the first occurrence of `c`
and, when `c` occurs, the remainder after it. -/
def splitFirst (c : Char) : Str → Str × Option Str
  | [] => ([], none)
  | x :: xs =>
    if x = c then ([], some xs)
    else
      let r := splitFirst c xs
      (x :: r.1, r.2)

/-- The model of `np.float64` values: not-a-number, signed infinity, or an
exact decimal number `m / 10 ^ e`.  Every IEEE double has a unique such
representation, which the canonical form below fixes. -/
inductive F where
  | nan : F
  | inf (neg : Bool) : F
  | fin (m : Int) (e : Nat) : F
deriving DecidableEq, Repr

/-- Remove trailing decimal zeros, yielding the canonical representative of
a finite value (mirrors the uniqueness of an IEEE double's value). -/
def canonize (m : Int) : Nat → F
  | 0 => F.fin m 0
  | e + 1 => if m % 10 = 0 then canonize (m / 10) e else F.fin m (e + 1)

/-- A float is canonical when a finite mantissa has no trailing zero
(so distinct canonical terms denote distinct doubles). -/
def canonF : F → Bool
  | F.nan => true
  | F.inf _ => true
  | F.fin m e => e = 0 || ¬ m % 10 = 0

/-- IEEE `==` on the float model: `nan` is unequal to everything, finite
values compare as exact rationals. -/
def feq : F → F → Bool
  | F.nan, _ => false
  | _, F.nan => false
  | F.inf a, F.inf b => a = b
  | F.inf _, F.fin _ _ => false
  | F.fin _ _, F.inf _ => false
  | F.fin m e, F.fin m' e' => m * (10 : Int) ^ e' = m' * (10 : Int) ^ e

/-- The `np.isnan` test. -/
def isNanF : F → Bool
  | F.nan => true
  | _ => false

/-- Negation of a float (used for parsing a leading minus sign). -/
def negF : F → F
  | F.nan => F.nan
  | F.inf b => F.inf (!b)
  | F.fin m e => F.fin (-m) e

/-- The digit run of `n` padded with leading zeros to at least `e + 1`
digits. -/
def padDigits (n e : Nat) : Str :=
  List.replicate (e + 1 - (natStr n).length) '0' ++ natStr n

/-- The digits in front of the decimal point of `n / 10 ^ e`. -/
def intPart (n e : Nat) : Str :=
  (padDigits n e).take ((padDigits n e).length - e)

/-- The `e` digits behind the decimal point of `n / 10 ^ e`. -/
def fracPart (n e : Nat) : Str :=
  (padDigits n e).drop ((padDigits n e).length - e)

/-- The unsigned decimal text of `n / 10 ^ e`, rendered the way Python
prints a float: at least one integer digit, a decimal point, and at least
one fractional digit. -/
def decStr (n : Nat) (e : Nat) : Str :=
  intPart n e ++ '.' :: (if e = 0 then ['0'] else fracPart n e)

/-- Python `str` of an `np.float64` value. -/
def floatToStr : F → Str
  | F.nan => ['n', 'a', 'n']
  | F.inf b => if b then ['-', 'i', 'n', 'f'] else ['i', 'n', 'f']
  | F.fin m e => (if m < 0 then ['-'] else []) ++ decStr m.natAbs e

/-- Parse an unsigned float text: the special words, or a digit run with an
optional fractional part.  Returns the canonical value. -/
def parseUns (s : Str) : Option F :=
  if s = ['n', 'a', 'n'] then some F.nan
  else if s = ['i', 'n', 'f'] then some (F.inf false)
  else
    match splitFirst '.' s with
    | (ip, none) =>
      if ip ≠ [] ∧ ip.all Char.isDigit then
        some (canonize (digitsVal ip) 0)
      else none
    | (ip, some fp) =>
      if (ip ≠ [] ∨ fp ≠ []) ∧ ip.all Char.isDigit ∧ fp.all Char.isDigit then
        some (canonize (digitsVal (ip ++ fp)) fp.length)
      else none

/-- Parse a float text with an optional sign, as `np.float64` does on a
string argument (`none` models the `ValueError` on failure). -/
def strToFloat : Str → Option F
  | [] => parseUns []
  | c :: rest =>
    if c = '-' then (parseUns rest).map negF
    else if c = '+' then parseUns rest
    else parseUns (c :: rest)

/-- Parse an unsigned digit run as a natural number, or fail. -/
def parseNat (s : Str) : Option Nat :=
  if s ≠ [] ∧ s.all Char.isDigit then some (digitsVal s) else none

/-- Python `int(s)` on a string: optional sign then a digit run
(`none` models the `ValueError` on failure). -/
def strToInt : Str → Option Int
  | [] => none
  | c :: rest =>
    if c = '-' then
      match parseNat rest with
      | some n => some (-(n : Int))
      | none => none
    else if c = '+' then
      match parseNat rest with
      | some n => some ((n : Int))
      | none => none
    else
      match parseNat (c :: rest) with
      | some n => some ((n : Int))
      | none => none

/-- A Python value flowing through the library: an `np.float64` or a text
string (the only kinds the format produces or consumes). -/
inductive Value where
  | numV (f : F) : Value
  | strV (s : Str) : Value
deriving DecidableEq, Repr

instance : Inhabited Value := ⟨Value.strV []⟩

/-- The Python exceptions the source can raise, by type (`ValueError`
carries its message so `SchemaMismatch` and parse failures stay distinct). -/
inductive Err where
  | valueError (msg : Str) : Err
  | indexError : Err
  | typeError : Err
  | stopIteration : Err
deriving DecidableEq, Repr

/-- Message of the `ValueError` raised when a text fails to parse as a
float (`np.float64(v)` on a bad string). -/
def parseMsg : Str := ['b', 'a', 'd', ' ', 'f', 'l', 'o', 'a', 't']

/-- Message of the `ValueError` raised when a token does not unpack into
an index and a value. -/
def unpackMsg : Str := ['b', 'a', 'd', ' ', 'p', 'a', 'i', 'r']

/-- Message of `ValueError("header size != numbers size")`. -/
def numbersSizeMsg : Str :=
  ['h', 'e', 'a', 'd', 'e', 'r', ' ', 's', 'i', 'z', 'e', ' ', '!', '=',
   ' ', 'n', 'u', 'm', 'b', 'e', 'r', 's', ' ', 's', 'i', 'z', 'e']

/-- Message of `ValueError("header size != defaults size")`. -/
def defaultsSizeMsg : Str :=
  ['h', 'e', 'a', 'd', 'e', 'r', ' ', 's', 'i', 'z', 'e', ' ', '!', '=',
   ' ', 'd', 'e', 'f', 'a', 'u', 'l', 't', 's', ' ', 's', 'i', 'z', 'e']

/-- The `np.float64` conversion applied to a Python value: the identity on
floats, parsing on strings. -/
def np_float64 : Value → Option F
  | Value.numV f => some f
  | Value.strV s => strToFloat s

/-- Python `==` between the values the library handles: floats compare by
IEEE equality, strings exactly, mixed kinds are unequal. -/
def pyEqVal : Value → Value → Bool
  | Value.numV f, Value.numV g => feq f g
  | Value.strV s, Value.strV t => s = t
  | _, _ => false

/-- The `np.isnan` test on a value; it raises `TypeError` on a string. -/
def isNanV : Value → Except Err Bool
  | Value.numV f => Except.ok (isNanF f)
  | Value.strV _ => Except.error Err.typeError

/-- Python `str` of a value, as `"{0}:{1}".format` renders it. -/
def valStr : Value → Str
  | Value.numV f => floatToStr f
  | Value.strV s => s

/-- The `_is_num` probe: does the value convert to a float? -/
def is_num (v : Value) : Bool := (np_float64 v).isSome

/-- Python positive list indexing `l[i]`, raising `IndexError` past the
end. -/
def listGetE {α : Type} (l : List α) (i : Nat) : Except Err α :=
  match l[i]? with
  | some a => Except.ok a
  | none => Except.error Err.indexError

/-- Python list indexing with a possibly negative index: `l[i]` is
`l[len l + i]` for negative `i`, and raises `IndexError` out of range. -/
def pyListGet {α : Type} (l : List α) (i : Int) : Except Err α :=
  if 0 ≤ i then listGetE l i.toNat
  else if 0 ≤ i + l.length then listGetE l (i + l.length).toNat
  else Except.error Err.indexError

/-- The schema triple `(header, defaults, numbers)` returned by
`_get_header`. -/
structure Schema where
  header : List Str
  defaults : List Value
  numbers : List Bool
deriving DecidableEq, Repr

/-- Columns of a schema (`len(self._defaults)` in the source's range
checks). -/
def Schema.N (s : Schema) : Nat := s.defaults.length

/-- The coercion of the defaults performed by `_get_header` when `copy` is
set: `np.float64(d) if numbers[fix] else d` for each default, where
`numbers[fix]` is a plain list index (it can raise `IndexError`) and the
float conversion can raise a parse `ValueError`. -/
def convDefaults (numbers : List Bool) : Nat → List Value → Except Err (List Value)
  | _, [] => Except.ok []
  | fix, d :: ds => do
    let nb ← listGetE numbers fix
    let d' ←
      if nb then
        match np_float64 d with
        | some f => Except.ok (Value.numV f)
        | none => Except.error (Err.valueError parseMsg)
      else Except.ok d
    let rest ← convDefaults numbers (fix + 1) ds
    Except.ok (d' :: rest)

/-- The `_get_header` validation: infer `numbers` from the defaults when
absent, check the sizes, and coerce the defaults when `copy` is set
(list copying itself is the identity in the model). -/
def get_header (header : List Str) (defaults : List Value)
    (numbers : Option (List Bool)) (copy : Bool) : Except Err Schema :=
  let nums := match numbers with
    | none => defaults.map is_num
    | some ns => ns
  if header.length ≠ nums.length then
    Except.error (Err.valueError numbersSizeMsg)
  else
    match (if copy then convDefaults nums 0 defaults else Except.ok defaults) with
    | Except.error e => Except.error e
    | Except.ok defs =>
      if header.length ≠ defs.length then
        Except.error (Err.valueError defaultsSizeMsg)
      else Except.ok ⟨header, defs, nums⟩

/-- The header argument a caller hands to `_get_header` may be the `None`
the loader leaves in place; `list(None)` and `len(None)` both raise
`TypeError`. -/
def get_header_opt (header : Option (List Str)) (defaults : List Value)
    (numbers : Option (List Bool)) (copy : Bool) : Except Err Schema :=
  match header with
  | none => Except.error Err.typeError
  | some h => get_header h defaults numbers copy

/-- A schema is valid when the three sequences have one length, numeric
columns carry canonical float defaults, and text columns carry text
defaults (the spec's data model: defaults are floats for numeric columns
and text otherwise). -/
def Schema.wf (s : Schema) : Bool :=
  (s.header.length == s.defaults.length) &&
  (s.header.length == s.numbers.length) &&
  (List.range s.defaults.length).all fun i =>
    if s.numbers.getD i false then
      match s.defaults.getD i default with
      | Value.numV f => canonF f
      | Value.strV _ => false
    else
      match s.defaults.getD i default with
      | Value.numV _ => false
      | Value.strV _ => true

/-- Message of the `ValueError` raised by `int(s)` on a bad literal. -/
def intMsg : Str := ['b', 'a', 'd', ' ', 'i', 'n', 't']

/-- An index argument as `int(fix)` receives it: already an integer, or a
text to parse (the loader feeds the text before the first colon). -/
inductive Ixv where
  | intIx (i : Int) : Ixv
  | strIx (s : Str) : Ixv
deriving DecidableEq, Repr

/-- Python `int(fix)`: the identity on integers, parsing on text. -/
def pyIntOf : Ixv → Except Err Int
  | Ixv.intIx i => Except.ok i
  | Ixv.strIx s =>
    match strToInt s with
    | some i => Except.ok i
    | none => Except.error (Err.valueError intMsg)

/-- The row's sparse mapping: an insertion-ordered association list with
unique keys, mirroring a Python `dict`. -/
abbrev RowMap := List (Nat × Value)

/-- Dict lookup. -/
def dictGet (d : RowMap) (k : Nat) : Option Value :=
  (d.find? fun p => p.1 = k).map Prod.snd

/-- Dict insertion: an existing key keeps its position (the first
occurrence is the only one, keys being unique), a new key goes to the end
(Python 3.7 dict order). -/
def dictSet (d : RowMap) (k : Nat) (v : Value) : RowMap :=
  match d with
  | [] => [(k, v)]
  | p :: ds => if p.1 = k then (k, v) :: ds else p :: dictSet ds k v

/-- Dict deletion with the `except KeyError: pass` guard: removing an
absent key is a no-op (keys are unique, so removing every occurrence is
removing the one entry). -/
def dictDel (d : RowMap) (k : Nat) : RowMap :=
  match d with
  | [] => []
  | p :: ds => if p.1 = k then dictDel ds k else p :: dictDel ds k

/-- The `_check_range` guard: `fix < 0 or fix >= len(self._defaults)`
raises `IndexError`. -/
def check_range (sch : Schema) (fix : Int) : Except Err Unit :=
  if fix < 0 ∨ (sch.N : Int) ≤ fix then Except.error Err.indexError
  else Except.ok ()

/-- The `_convert` step: fetch the column default and numeric flag (plain
list indexing), convert the value for a numeric column, and compute
`is_d = v == default or (np.isnan(v) and np.isnan(default))` with
Python's evaluation order (so `np.isnan(default)` can raise `TypeError`
only when `v` is NaN). -/
def convert (sch : Schema) (fix : Nat) (v : Value) :
    Except Err (Value × Bool) := do
  let d ← listGetE sch.defaults fix
  let nb ← listGetE sch.numbers fix
  if nb then
    match np_float64 v with
    | none => Except.error (Err.valueError parseMsg)
    | some f =>
      if pyEqVal (Value.numV f) d then Except.ok (Value.numV f, true)
      else if isNanF f then do
        let dn ← isNanV d
        Except.ok (Value.numV f, dn)
      else Except.ok (Value.numV f, false)
  else Except.ok (v, pyEqVal v d)

/-- The local `add` of `SparseRow.__init__`: coerce the index, range-check
it, convert the value, and store it only when it is not default-equal. -/
def add_entry (sch : Schema) (vals : RowMap) (ix : Ixv) (v : Value) :
    Except Err RowMap :=
  match pyIntOf ix with
  | Except.error e => Except.error e
  | Except.ok fix =>
    match check_range sch fix with
    | Except.error e => Except.error e
    | Except.ok _ =>
      match convert sch fix.toNat v with
      | Except.error e => Except.error e
      | Except.ok (v', is_d) =>
        Except.ok (if is_d then vals else dictSet vals fix.toNat v')

/-- The `coo` loop of `SparseRow.__init__` over an already-built schema. -/
def init_coo (sch : Schema) : List (Ixv × Value) → RowMap → Except Err RowMap
  | [], acc => Except.ok acc
  | (ix, v) :: rest, acc =>
    match add_entry sch acc ix v with
    | Except.error e => Except.error e
    | Except.ok acc' => init_coo sch rest acc'

/-- The enumeration loop of `from_dense`: convert each value at its
position and store the non-default ones; an error leaves the entries
stored so far in place (the Python exception aborts the loop mid-way). -/
def fd_go (sch : Schema) : Nat → List Value → RowMap → Option Err × RowMap
  | _, [], acc => (none, acc)
  | i, v :: vs, acc =>
    match convert sch i v with
    | Except.error e => (some e, acc)
    | Except.ok (v', is_d) =>
      fd_go sch (i + 1) vs (if is_d then acc else dictSet acc i v')

/-- The `from_dense` method: clear the mapping, ingest the values in
order, then validate only `last_fix` (which stays `0` for an empty
sequence) against the schema. -/
def from_dense (sch : Schema) (row : List Value) : Option Err × RowMap :=
  match fd_go sch 0 row [] with
  | (some e, acc) => (some e, acc)
  | (none, acc) =>
    match check_range sch ((row.length - 1 : Nat) : Int) with
    | Except.error e => (some e, acc)
    | Except.ok _ => (none, acc)

/-- The `__setitem__` method: range check, convert, then either drop the
entry (default-equal value) or store it.  The pair carries the possible
exception and the mapping the row holds afterwards. -/
def setitem (sch : Schema) (vals : RowMap) (fix : Int) (v : Value) :
    Option Err × RowMap :=
  match check_range sch fix with
  | Except.error e => (some e, vals)
  | Except.ok _ =>
    match convert sch fix.toNat v with
    | Except.error e => (some e, vals)
    | Except.ok (v', is_d) =>
      (none, if is_d then dictDel vals fix.toNat else dictSet vals fix.toNat v')

/-- The `__delitem__` method: range check, then remove the entry if
present. -/
def delitem (sch : Schema) (vals : RowMap) (fix : Int) : Option Err × RowMap :=
  match check_range sch fix with
  | Except.error e => (some e, vals)
  | Except.ok _ => (none, dictDel vals fix.toNat)

/-- The `__getitem__` method via `_get`: a dict hit returns the stored
value, a `KeyError` falls back to `self._defaults[fix]` — a plain list
index, so a negative `fix` indexes from the end without any range
check. -/
def getitem (sch : Schema) (vals : RowMap) (fix : Int) : Except Err Value :=
  match (if 0 ≤ fix then dictGet vals fix.toNat else none) with
  | some v => Except.ok v
  | none => pyListGet sch.defaults fix

/-- The `clear` method. -/
def clear_row (_vals : RowMap) : RowMap := []

/-- The sequence produced by the row's iterator: `_get(ix)` for each
`ix` below `len(self._defaults)`. -/
def dense_view (sch : Schema) (vals : RowMap) : List Value :=
  (List.range sch.N).map fun i =>
    (dictGet vals i).getD (sch.defaults.getD i default)

/-- The `write_sparse_row` encoding: one `"{fix}:{value}"` token per
stored entry, in mapping order. -/
def write_sparse_row (sparse : RowMap) : List Str :=
  sparse.map fun p => natStr p.1 ++ ':' :: valStr p.2

/-- The `write_dense_row` method: build the transient row
(`get_empty_row` runs `_get_header` without copying), ingest the dense
values, and encode the resulting sparse entries as one line. -/
def write_dense_row (sch : Schema) (values : List Value) :
    Except Err (List Str) :=
  match get_header sch.header sch.defaults (some sch.numbers) false with
  | Except.error e => Except.error e
  | Except.ok sch' =>
    match from_dense sch' values with
    | (some e, _) => Except.error e
    | (none, m) => Except.ok (write_sparse_row m)

/-- The `SparseWriter` constructor: build the schema and emit the header
and defaults lines; on failure the transport is closed (second component)
before the exception propagates. -/
def writer_init (header : List Str) (defaults : List Value)
    (numbers : Option (List Bool)) (copy : Bool) :
    Except Err (Schema × List (List Str)) × Bool :=
  match get_header header defaults numbers copy with
  | Except.error e => (Except.error e, true)
  | Except.ok sch => (Except.ok (sch, [sch.header, sch.defaults.map valStr]), false)

/-- Reading one line from the transport; no further line raises
`StopIteration`. -/
def next_line (lines : List (List Str)) :
    Except Err (List Str × List (List Str)) :=
  match lines with
  | [] => Except.error Err.stopIteration
  | l :: ls => Except.ok (l, ls)

/-- The `SparseLoader` constructor.  When no header is pre-supplied it
reads one line (bound to `self._header` and never looked at again) and,
when no defaults are pre-supplied, a further line; it then calls
`_get_header` on the original `header` argument — the unrepaired `None`
when the header came from the stream.  On any failure the transport is
closed (second component) before the exception propagates. -/
def loader_init (lines : List (List Str)) (header : Option (List Str))
    (defaults : Option (List Value)) (numbers : Option (List Bool))
    (copy : Bool) : Except Err (Schema × List (List Str)) × Bool :=
  let r : Except Err (Schema × List (List Str)) :=
    match (if header.isNone then next_line lines
           else Except.ok ([], lines)) with
    | Except.error e => Except.error e
    | Except.ok (_, rest1) =>
      match (match defaults with
             | some ds => Except.ok (ds, rest1)
             | none =>
               match next_line rest1 with
               | Except.error e => Except.error e
               | Except.ok (l, rest2) => Except.ok (l.map Value.strV, rest2)) with
      | Except.error e => Except.error e
      | Except.ok (ds, rest) =>
        match get_header_opt header ds numbers copy with
        | Except.error e => Except.error e
        | Except.ok sch => Except.ok (sch, rest)
  match r with
  | Except.error e => (Except.error e, true)
  | Except.ok x => (Except.ok x, false)

/-- Splitting one encoded token on the first colon; a token without a
colon fails to unpack into `(fix, v)` (a `ValueError`). -/
def token_pair (e : Str) : Except Err (Ixv × Value) :=
  match splitFirst ':' e with
  | (a, some b) => Except.ok (Ixv.strIx a, Value.strV b)
  | (_, none) => Except.error (Err.valueError unpackMsg)

/-- The loop of `SparseRow.__init__` as driven by the loader's token
generator: tokens are split and added one at a time. -/
def load_row_go (sch : Schema) : List Str → RowMap → Except Err RowMap
  | [], acc => Except.ok acc
  | e :: es, acc =>
    match token_pair e with
    | Except.error err => Except.error err
    | Except.ok (ix, v) =>
      match add_entry sch acc ix v with
      | Except.error err => Except.error err
      | Except.ok acc' => load_row_go sch es acc'

/-- The loader's `__next__` on one line: rebuild the row over the shared
schema (`_get_header` without copying) from the split tokens. -/
def next_row (sch : Schema) (line : List Str) : Except Err RowMap :=
  match get_header sch.header sch.defaults (some sch.numbers) false with
  | Except.error e => Except.error e
  | Except.ok sch' => load_row_go sch' line []

/-- Numeric cell equality as the spec states it: IEEE equality, or both
values NaN. -/
def eqNum (f g : F) : Bool := feq f g || (isNanF f && isNanF g)

/-- Whether a value is a NaN float (a string is not). -/
def nanB : Value → Bool
  | Value.numV f => isNanF f
  | Value.strV _ => false

/-- The claim's default-equality rule at column `k`: for a numeric column
`v == defaults[k]` or both NaN, for a text column exact equality. -/
def claimDefEq (sch : Schema) (k : Nat) (v : Value) : Bool :=
  let d := sch.defaults.getD k default
  if sch.numbers.getD k false then pyEqVal v d || (nanB v && nanB d)
  else v = d

/-- The elision invariant of claim C4: no stored entry is default-equal to
its column's default. -/
def RowInv (sch : Schema) (m : RowMap) : Bool :=
  m.all fun p => ! claimDefEq sch p.1 p.2

/-- The claim's cell equality between a decoded and an original value at
column `i`: numeric columns compare as floats (NaN matching NaN), text
columns exactly. -/
def claimEqAt (sch : Schema) (i : Nat) (a b : Value) : Bool :=
  if sch.numbers.getD i false then
    match np_float64 a, np_float64 b with
    | some f, some g => eqNum f g
    | _, _ => false
  else a = b

/-- A value is well typed for column `i`: a numeric column holds a float
in canonical form or a text that parses, a text column holds text (the
spec's data model for cell values). -/
def wtVal (sch : Schema) (i : Nat) (v : Value) : Bool :=
  if sch.numbers.getD i false then
    match v with
    | Value.numV f => canonF f
    | Value.strV s => (strToFloat s).isSome
  else
    match v with
    | Value.numV _ => false
    | Value.strV _ => true

/-- A dense row is well typed: one well-typed value per column. -/
def wtRow (sch : Schema) (r : List Value) : Bool :=
  r.length = sch.N &&
    (List.range r.length).all fun i => wtVal sch i (r.getD i default)

/-- The float default of a numeric column (junk on a text column). -/
def dfltF (sch : Schema) (i : Nat) : F :=
  match sch.defaults.getD i default with
  | Value.numV f => f
  | Value.strV _ => F.nan

/-- The mapping `from_dense` builds when every conversion succeeds: the
non-default converted values, keyed by their ascending positions. -/
def fdSpec (sch : Schema) : Nat → List Value → RowMap
  | _, [] => []
  | i, v :: vs =>
    match convert sch i v with
    | Except.ok (v', false) => (i, v') :: fdSpec sch (i + 1) vs
    | _ => fdSpec sch (i + 1) vs

/-- The converted value of the last entry for index `i` that is not
default-equal, scanning a `coo` sequence (later entries take precedence,
default-equal entries are skipped). -/
def lastKeep (sch : Schema) (i : Nat) : List (Ixv × Value) → Option Value
  | [] => none
  | (ix, v) :: rest =>
    match lastKeep sch i rest with
    | some w => some w
    | none =>
      match pyIntOf ix with
      | Except.ok fix =>
        if fix = (i : Int) then
          match convert sch i v with
          | Except.ok (v', false) => some v'
          | _ => none
        else none
      | Except.error _ => none

/-- Writing a sequence of dense rows, one line each. -/
def write_rows (sch : Schema) (rows : List (List Value)) :
    Except Err (List (List Str)) :=
  rows.mapM (write_dense_row sch)

/-- Loading every remaining line, one row each (the loader's iteration
until `StopIteration`). -/
def load_rows (sch : Schema) (lines : List (List Str)) :
    Except Err (List RowMap) :=
  lines.mapM (next_row sch)

/-! Lemmas about digit characters and decimal renderings. -/

theorem digitCh_isDigit {d : Nat} (h : d < 10) : (digitCh d).isDigit = true := by
  interval_cases d <;> decide

theorem chDigit_digitCh {d : Nat} (h : d < 10) : chDigit (digitCh d) = d := by
  interval_cases d <;> decide

theorem isDigit_ne_dot {c : Char} (h : c.isDigit = true) : c ≠ '.' := by
  rintro rfl; exact absurd h (by decide)

theorem isDigit_ne_colon {c : Char} (h : c.isDigit = true) : c ≠ ':' := by
  rintro rfl; exact absurd h (by decide)

theorem isDigit_ne_minus {c : Char} (h : c.isDigit = true) : c ≠ '-' := by
  rintro rfl; exact absurd h (by decide)

theorem isDigit_ne_plus {c : Char} (h : c.isDigit = true) : c ≠ '+' := by
  rintro rfl; exact absurd h (by decide)

theorem natStr_ne_nil (n : Nat) : natStr n ≠ [] := by
  unfold natStr
  split
  · simp
  · intro hc
    have h1 : (Nat.digits 10 n).map digitCh = [] := by
      simpa using congrArg List.reverse hc
    have h2 : Nat.digits 10 n = [] := List.map_eq_nil_iff.mp h1
    exact (Nat.digits_ne_nil_iff_ne_zero.mpr (by assumption)) h2

theorem natStr_digits (n : Nat) : ∀ c ∈ natStr n, c.isDigit = true := by
  intro c hc
  unfold natStr at hc
  split at hc
  · simp only [List.mem_singleton] at hc
    subst hc; decide
  · rw [List.mem_reverse] at hc
    obtain ⟨d, hd, rfl⟩ := List.mem_map.mp hc
    exact digitCh_isDigit (Nat.digits_lt_base (by norm_num) hd)

theorem digitsVal_natStr (n : Nat) : digitsVal (natStr n) = n := by
  unfold natStr digitsVal
  split
  · rename_i h; rw [h]; decide
  · rw [List.map_reverse, List.reverse_reverse, List.map_map]
    have h1 : (Nat.digits 10 n).map (chDigit ∘ digitCh) = Nat.digits 10 n := by
      rw [List.map_congr_left (g := id) ?_, List.map_id]
      intro d hd
      exact chDigit_digitCh (Nat.digits_lt_base (by norm_num) hd)
    rw [h1, Nat.ofDigits_digits]

theorem digitsVal_append (xs ys : Str) :
    digitsVal (xs ++ ys) = digitsVal ys + 10 ^ ys.length * digitsVal xs := by
  unfold digitsVal
  rw [List.map_append, List.reverse_append, Nat.ofDigits_append]
  simp

theorem digitsVal_replicate_zero (k : Nat) :
    digitsVal (List.replicate k '0') = 0 := by
  induction k with
  | zero => decide
  | succ k ih =>
    rw [List.replicate_succ', digitsVal_append, ih]
    decide

theorem splitFirst_not_mem {c : Char} {s : Str} (h : c ∉ s) :
    splitFirst c s = (s, none) := by
  induction s with
  | nil => rfl
  | cons x xs ih =>
    have hx : ¬ x = c := fun hxc => h (hxc ▸ List.mem_cons_self x xs)
    have hxs : c ∉ xs := fun hm => h (List.mem_cons_of_mem x hm)
    simp [splitFirst, hx, ih hxs]

theorem splitFirst_append {c : Char} {pre post : Str} (h : c ∉ pre) :
    splitFirst c (pre ++ c :: post) = (pre, some post) := by
  induction pre with
  | nil => simp [splitFirst]
  | cons x xs ih =>
    have hx : ¬ x = c := fun hxc => h (hxc ▸ List.mem_cons_self x xs)
    have hxs : c ∉ xs := fun hm => h (List.mem_cons_of_mem x hm)
    simp [splitFirst, hx, ih hxs]

/-! Lemmas about canonical floats and the text codec. -/

theorem canonize_canonF (m : Int) (e : Nat) : canonF (canonize m e) = true := by
  induction e generalizing m with
  | zero => rfl
  | succ e ih =>
    unfold canonize
    split
    · exact ih _
    · simp [canonF, *]

theorem canonize_of_canonF {m : Int} {e : Nat} (h : canonF (F.fin m e) = true) :
    canonize m e = F.fin m e := by
  cases e with
  | zero => rfl
  | succ e =>
    have hm : ¬ m % 10 = 0 := by simpa [canonF] using h
    unfold canonize
    simp [hm]

theorem canonize_shift (n : Nat) :
    canonize ((10 * n : Nat) : Int) 1 = canonize (n : Int) 0 := by
  have h : ((10 * n : Nat) : Int) % 10 = 0 := by push_cast; omega
  have h2 : ((10 * n : Nat) : Int) / 10 = (n : Int) := by push_cast; omega
  unfold canonize
  rw [if_pos h, h2]
  rfl

theorem canonF_negF (f : F) : canonF (negF f) = canonF f := by
  cases f with
  | nan => rfl
  | inf b => rfl
  | fin m e =>
    cases e with
    | zero => rfl
    | succ e =>
      have h : ((-m) % 10 = 0) ↔ (m % 10 = 0) := by omega
      simp [canonF, negF, h]

theorem canonF_natAbs (m : Int) (e : Nat) :
    canonF (F.fin (m.natAbs : Int) e) = canonF (F.fin m e) := by
  cases e with
  | zero => rfl
  | succ e =>
    have h : ((m.natAbs : Int) % 10 = 0) ↔ (m % 10 = 0) := by omega
    simp [canonF, h]

theorem parseUns_canonF {s : Str} {f : F} (h : parseUns s = some f) :
    canonF f = true := by
  unfold parseUns at h
  split at h
  · cases h; rfl
  · split at h
    · cases h; rfl
    · split at h
      · split at h
        · cases h; exact canonize_canonF _ _
        · cases h
      · split at h
        · cases h; exact canonize_canonF _ _
        · cases h

theorem strToFloat_canonF {s : Str} {f : F} (h : strToFloat s = some f) :
    canonF f = true := by
  cases s with
  | nil => exact parseUns_canonF h
  | cons c rest =>
    have h' : (if c = '-' then (parseUns rest).map negF
        else if c = '+' then parseUns rest
        else parseUns (c :: rest)) = some f := h
    split at h'
    · obtain ⟨g, hg, rfl⟩ := Option.map_eq_some'.mp h'
      rw [canonF_negF]
      exact parseUns_canonF hg
    · split at h'
      · exact parseUns_canonF h'
      · exact parseUns_canonF h'

theorem padDigits_length (n e : Nat) : e + 1 ≤ (padDigits n e).length := by
  unfold padDigits
  rw [List.length_append, List.length_replicate]
  have : 1 ≤ (natStr n).length := List.length_pos.mpr (natStr_ne_nil n)
  omega

theorem padDigits_digits (n e : Nat) :
    ∀ c ∈ padDigits n e, c.isDigit = true := by
  intro c hc
  rcases List.mem_append.mp hc with hc | hc
  · rw [List.eq_of_mem_replicate hc]; decide
  · exact natStr_digits n c hc

theorem padDigits_val (n e : Nat) : digitsVal (padDigits n e) = n := by
  unfold padDigits
  rw [digitsVal_append, digitsVal_replicate_zero, digitsVal_natStr]
  simp

theorem intPart_append_fracPart (n e : Nat) :
    intPart n e ++ fracPart n e = padDigits n e :=
  List.take_append_drop _ _

theorem intPart_ne_nil (n e : Nat) : intPart n e ≠ [] := by
  intro hnil
  have h0 : (intPart n e).length = 0 := by rw [hnil]; rfl
  have h1 : (intPart n e).length = (padDigits n e).length - e := by
    unfold intPart
    rw [List.length_take]
    omega
  have := padDigits_length n e
  omega

theorem fracPart_length (n e : Nat) : (fracPart n e).length = e := by
  have := padDigits_length n e
  unfold fracPart
  rw [List.length_drop]
  omega

theorem intPart_digits (n e : Nat) : ∀ c ∈ intPart n e, c.isDigit = true :=
  fun c hc => padDigits_digits n e c
    (by rw [← intPart_append_fracPart n e]; exact List.mem_append_left _ hc)

theorem fracPart_digits (n e : Nat) : ∀ c ∈ fracPart n e, c.isDigit = true :=
  fun c hc => padDigits_digits n e c
    (by rw [← intPart_append_fracPart n e]; exact List.mem_append_right _ hc)

theorem parseUns_split {ip fp : Str} (hne : ip ≠ [])
    (hip : ∀ c ∈ ip, c.isDigit = true) (hfp : ∀ c ∈ fp, c.isDigit = true) :
    parseUns (ip ++ '.' :: fp) =
      some (canonize (digitsVal (ip ++ fp) : Int) fp.length) := by
  have hdot : '.' ∉ ip := fun hm => isDigit_ne_dot (hip _ hm) rfl
  have hmemdot : '.' ∈ ip ++ '.' :: fp :=
    List.mem_append_right _ (List.mem_cons_self _ _)
  have hne_nan : ip ++ '.' :: fp ≠ ['n', 'a', 'n'] := by
    intro hcontra
    rw [hcontra] at hmemdot
    exact absurd hmemdot (by decide)
  have hne_inf : ip ++ '.' :: fp ≠ ['i', 'n', 'f'] := by
    intro hcontra
    rw [hcontra] at hmemdot
    exact absurd hmemdot (by decide)
  unfold parseUns
  rw [if_neg hne_nan, if_neg hne_inf, splitFirst_append hdot]
  exact if_pos ⟨Or.inl hne, List.all_eq_true.mpr hip, List.all_eq_true.mpr hfp⟩

theorem parseUns_decStr (n e : Nat) :
    parseUns (decStr n e) = some (canonize (n : Int) e) := by
  cases e with
  | zero =>
    have hfp : decStr n 0 = intPart n 0 ++ '.' :: ['0'] := rfl
    rw [hfp, parseUns_split (intPart_ne_nil n 0) (intPart_digits n 0)
      (by intro c hc; simp only [List.mem_singleton] at hc; subst hc; decide)]
    have hip : intPart n 0 = padDigits n 0 := by
      have h1 := fracPart_length n 0
      have h2 := intPart_append_fracPart n 0
      have h3 : fracPart n 0 = [] := List.length_eq_zero.mp h1
      rw [h3, List.append_nil] at h2
      exact h2
    have hval : digitsVal (intPart n 0 ++ ['0']) = 10 * n := by
      have hz : digitsVal ['0'] = 0 := by decide
      rw [digitsVal_append, hip, padDigits_val, hz]
      norm_num
    rw [hval]
    simp only [List.length_singleton]
    rw [canonize_shift]
  | succ e =>
    have hfp : decStr n (e + 1) = intPart n (e + 1) ++ '.' :: fracPart n (e + 1) := by
      unfold decStr
      rw [if_neg (by omega)]
    rw [hfp, parseUns_split (intPart_ne_nil n (e + 1)) (intPart_digits n (e + 1))
      (fracPart_digits n (e + 1))]
    rw [intPart_append_fracPart, padDigits_val, fracPart_length]

theorem strToFloat_digit_head {s : Str} {c : Char} (hc : c.isDigit = true) :
    strToFloat (c :: s) = parseUns (c :: s) := by
  have h0 : strToFloat (c :: s) = (if c = '-' then (parseUns s).map negF
      else if c = '+' then parseUns s
      else parseUns (c :: s)) := rfl
  rw [h0, if_neg (isDigit_ne_minus hc), if_neg (isDigit_ne_plus hc)]

theorem strToFloat_decStr (n e : Nat) :
    strToFloat (decStr n e) = some (canonize (n : Int) e) := by
  obtain ⟨c, cs, hcons⟩ : ∃ c cs, intPart n e = c :: cs := by
    cases hip : intPart n e with
    | nil => exact absurd hip (intPart_ne_nil n e)
    | cons c cs => exact ⟨c, cs, rfl⟩
  have hcd : c.isDigit = true :=
    intPart_digits n e c (hcons ▸ List.mem_cons_self c cs)
  have hdec : decStr n e = c :: (cs ++ '.' :: (if e = 0 then ['0'] else fracPart n e)) := by
    unfold decStr
    rw [hcons]
    rfl
  rw [hdec, strToFloat_digit_head hcd, ← List.cons_append, ← hcons, ← decStr,
    parseUns_decStr]

theorem strToFloat_floatToStr {f : F} (h : canonF f = true) :
    strToFloat (floatToStr f) = some f := by
  cases f with
  | nan => decide
  | inf b => cases b <;> decide
  | fin m e =>
    have h1 : floatToStr (F.fin m e) =
        (if m < 0 then ['-'] else []) ++ decStr m.natAbs e := rfl
    by_cases hm : m < 0
    · have hstr : floatToStr (F.fin m e) = '-' :: decStr m.natAbs e := by
        rw [h1, if_pos hm]
        rfl
      rw [hstr]
      have hsf : strToFloat ('-' :: decStr m.natAbs e) =
          (parseUns (decStr m.natAbs e)).map negF := rfl
      rw [hsf, parseUns_decStr]
      have hcan : canonF (F.fin (m.natAbs : Int) e) = true := by
        rw [canonF_natAbs]; exact h
      rw [canonize_of_canonF hcan, Option.map_some']
      have habs : -(m.natAbs : Int) = m := by omega
      show some (F.fin (-(m.natAbs : Int)) e) = some (F.fin m e)
      rw [habs]
    · have hstr : floatToStr (F.fin m e) = decStr m.natAbs e := by
        rw [h1, if_neg hm]
        rfl
      rw [hstr, strToFloat_decStr]
      have hcan : canonF (F.fin (m.natAbs : Int) e) = true := by
        rw [canonF_natAbs]; exact h
      rw [canonize_of_canonF hcan]
      have habs : (m.natAbs : Int) = m := by omega
      rw [habs]

theorem natStr_cons (k : Nat) : ∃ c cs, natStr k = c :: cs := by
  cases hk : natStr k with
  | nil => exact absurd hk (natStr_ne_nil k)
  | cons c cs => exact ⟨c, cs, rfl⟩

theorem strToInt_natStr (k : Nat) : strToInt (natStr k) = some (k : Int) := by
  obtain ⟨c, cs, hcons⟩ := natStr_cons k
  have hcd : c.isDigit = true := natStr_digits k c (hcons ▸ List.mem_cons_self c cs)
  rw [hcons]
  have h0 : strToInt (c :: cs) = (if c = '-' then
        (match parseNat cs with
         | some n => some (-(n : Int))
         | none => none)
      else if c = '+' then
        (match parseNat cs with
         | some n => some ((n : Int))
         | none => none)
      else
        (match parseNat (c :: cs) with
         | some n => some ((n : Int))
         | none => none)) := rfl
  rw [h0, if_neg (isDigit_ne_minus hcd), if_neg (isDigit_ne_plus hcd)]
  unfold parseNat
  rw [if_pos ⟨List.cons_ne_nil c cs, List.all_eq_true.mpr
    (by rw [← hcons]; exact natStr_digits k)⟩]
  show some ((digitsVal (c :: cs) : Int)) = some (k : Int)
  rw [← hcons, digitsVal_natStr]

theorem colon_not_mem_natStr (k : Nat) : ':' ∉ natStr k :=
  fun hm => isDigit_ne_colon (natStr_digits k ':' hm) rfl

theorem eqNum_refl (f : F) : eqNum f f = true := by
  cases f <;> simp [eqNum, feq, isNanF]

theorem eqNum_symm (f g : F) : eqNum f g = eqNum g f := by
  have hfeq : feq f g = feq g f := by
    cases f <;> cases g <;> simp only [feq] <;> rw [decide_eq_decide] <;>
      exact eq_comm
  unfold eqNum
  rw [hfeq, Bool.and_comm]

/-! Lemmas about list indexing, dict operations, valid schemas, and
`_convert`. -/

theorem listGetE_lt {α : Type} (l : List α) (d : α) {i : Nat} (hi : i < l.length) :
    listGetE l i = Except.ok (l.getD i d) := by
  unfold listGetE
  rw [List.getD_eq_getElem?_getD, List.getElem?_eq_getElem hi]
  rfl

theorem listGetE_ge {α : Type} (l : List α) {i : Nat} (hi : l.length ≤ i) :
    listGetE l i = Except.error Err.indexError := by
  unfold listGetE
  rw [List.getElem?_eq_none hi]

theorem dictGet_cons (p : Nat × Value) (ds : RowMap) (k : Nat) :
    dictGet (p :: ds) k = if p.1 = k then some p.2 else dictGet ds k := by
  unfold dictGet
  rw [List.find?]
  by_cases hp : p.1 = k
  · simp [hp]
  · simp [hp]

theorem dictGet_none_of_forall {d : RowMap} {k : Nat} (h : ∀ p ∈ d, ¬ p.1 = k) :
    dictGet d k = none := by
  unfold dictGet
  rw [List.find?_eq_none.mpr (by intro p hp; simpa using h p hp)]
  rfl

theorem dictGet_dictSet_self (d : RowMap) (k : Nat) (v : Value) :
    dictGet (dictSet d k v) k = some v := by
  induction d with
  | nil => simp [dictSet, dictGet_cons]
  | cons p ds ih =>
    unfold dictSet
    by_cases hp : p.1 = k
    · rw [if_pos hp, dictGet_cons, if_pos rfl]
    · rw [if_neg hp, dictGet_cons, if_neg hp, ih]

theorem dictGet_dictSet_ne (d : RowMap) {k j : Nat} (h : ¬ k = j) (v : Value) :
    dictGet (dictSet d k v) j = dictGet d j := by
  induction d with
  | nil => simp [dictSet, dictGet_cons, dictGet, h]
  | cons p ds ih =>
    unfold dictSet
    by_cases hp : p.1 = k
    · rw [if_pos hp, dictGet_cons, dictGet_cons, if_neg h, if_neg (hp ▸ h)]
    · rw [if_neg hp, dictGet_cons, dictGet_cons, ih]

theorem mem_dictDel {d : RowMap} {k : Nat} {p} (h : p ∈ dictDel d k) :
    p ∈ d := by
  induction d with
  | nil => exact absurd h (by simp [dictDel])
  | cons q ds ih =>
    unfold dictDel at h
    by_cases hq : q.1 = k
    · rw [if_pos hq] at h
      exact List.mem_cons_of_mem _ (ih h)
    · rw [if_neg hq] at h
      rcases List.mem_cons.mp h with rfl | hm
      · exact List.mem_cons_self _ _
      · exact List.mem_cons_of_mem _ (ih hm)

theorem dictGet_dictDel_self (d : RowMap) (k : Nat) :
    dictGet (dictDel d k) k = none := by
  induction d with
  | nil => rfl
  | cons p ds ih =>
    unfold dictDel
    by_cases hpk : p.1 = k
    · rw [if_pos hpk]
      exact ih
    · rw [if_neg hpk, dictGet_cons, if_neg hpk]
      exact ih

theorem dictGet_dictDel_ne (d : RowMap) {k j : Nat} (h : ¬ k = j) :
    dictGet (dictDel d k) j = dictGet d j := by
  induction d with
  | nil => rfl
  | cons p ds ih =>
    unfold dictDel
    by_cases hpk : p.1 = k
    · have hpj : ¬ p.1 = j := by rw [hpk]; exact h
      rw [if_pos hpk, dictGet_cons, if_neg hpj]
      exact ih
    · rw [if_neg hpk, dictGet_cons, dictGet_cons, ih]

theorem dictDel_absent {d : RowMap} {k : Nat} (h : dictGet d k = none) :
    dictDel d k = d := by
  induction d with
  | nil => rfl
  | cons p ds ih =>
    rw [dictGet_cons] at h
    by_cases hpk : p.1 = k
    · rw [if_pos hpk] at h; cases h
    · rw [if_neg hpk] at h
      unfold dictDel
      rw [if_neg hpk, ih h]

theorem dictSet_fresh {d : RowMap} {k : Nat} (h : dictGet d k = none) (v : Value) :
    dictSet d k v = d ++ [(k, v)] := by
  induction d with
  | nil => rfl
  | cons p ds ih =>
    rw [dictGet_cons] at h
    by_cases hpk : p.1 = k
    · rw [if_pos hpk] at h; cases h
    · rw [if_neg hpk] at h
      unfold dictSet
      rw [if_neg hpk, ih h]
      rfl

theorem mem_dictSet {d : RowMap} {k : Nat} {v p} (h : p ∈ dictSet d k v) :
    p = (k, v) ∨ p ∈ d := by
  induction d with
  | nil => simpa [dictSet] using h
  | cons q ds ih =>
    unfold dictSet at h
    by_cases hq : q.1 = k
    · rw [if_pos hq] at h
      rcases List.mem_cons.mp h with rfl | hm
      · exact Or.inl rfl
      · exact Or.inr (List.mem_cons_of_mem _ hm)
    · rw [if_neg hq] at h
      rcases List.mem_cons.mp h with rfl | hm
      · exact Or.inr (List.mem_cons_self _ _)
      · rcases ih hm with he | hm'
        · exact Or.inl he
        · exact Or.inr (List.mem_cons_of_mem _ hm')

theorem wf_header_length {sch : Schema} (h : sch.wf = true) :
    sch.header.length = sch.N := by
  unfold Schema.wf at h
  exact Nat.beq_eq_true_eq _ _ ▸ (Bool.and_eq_true_iff.mp
    (Bool.and_eq_true_iff.mp h).1).1

theorem wf_numbers_length {sch : Schema} (h : sch.wf = true) :
    sch.numbers.length = sch.N := by
  unfold Schema.wf at h
  have h1 := (Bool.and_eq_true_iff.mp (Bool.and_eq_true_iff.mp h).1).1
  have h2 := (Bool.and_eq_true_iff.mp (Bool.and_eq_true_iff.mp h).1).2
  rw [Nat.beq_eq_true_eq] at h1 h2
  rw [← h2, h1]
  rfl

theorem wf_col {sch : Schema} (h : sch.wf = true) {i : Nat} (hi : i < sch.N) :
    (if sch.numbers.getD i false then
      match sch.defaults.getD i default with
      | Value.numV f => canonF f
      | Value.strV _ => false
    else
      match sch.defaults.getD i default with
      | Value.numV _ => false
      | Value.strV _ => true) = true := by
  unfold Schema.wf at h
  have h3 := (Bool.and_eq_true_iff.mp h).2
  exact List.all_eq_true.mp h3 i (List.mem_range.mpr hi)

theorem wf_num_default {sch : Schema} (h : sch.wf = true) {i : Nat}
    (hi : i < sch.N) (hn : sch.numbers.getD i false = true) :
    ∃ f, sch.defaults.getD i default = Value.numV f ∧ canonF f = true := by
  have hc := wf_col h hi
  rw [hn, if_pos rfl] at hc
  cases hd : sch.defaults.getD i default with
  | numV f => exact ⟨f, rfl, by rwa [hd] at hc⟩
  | strV s => rw [hd] at hc; cases hc

theorem wf_txt_default {sch : Schema} (h : sch.wf = true) {i : Nat}
    (hi : i < sch.N) (hn : sch.numbers.getD i false = false) :
    ∃ s, sch.defaults.getD i default = Value.strV s := by
  have hc := wf_col h hi
  rw [hn] at hc
  simp only [Bool.false_eq_true, if_false] at hc
  cases hd : sch.defaults.getD i default with
  | numV f => rw [hd] at hc; cases hc
  | strV s => exact ⟨s, rfl⟩

theorem convert_num {sch : Schema} (hwf : sch.wf = true) {i : Nat}
    (hi : i < sch.N) (hn : sch.numbers.getD i false = true) (v : Value) :
    convert sch i v = (match np_float64 v with
      | none => Except.error (Err.valueError parseMsg)
      | some f => Except.ok (Value.numV f, eqNum f (dfltF sch i))) := by
  obtain ⟨df, hdf, _⟩ := wf_num_default hwf hi hn
  have hilen : i < sch.defaults.length := hi
  have hnlen : i < sch.numbers.length := by rw [wf_numbers_length hwf]; exact hi
  unfold convert
  rw [listGetE_lt sch.defaults default hilen, listGetE_lt sch.numbers false hnlen]
  show (if sch.numbers.getD i false = true then _ else _) = _
  rw [hn, if_pos rfl, hdf]
  cases hv : np_float64 v with
  | none => rfl
  | some f =>
    have hdflt : dfltF sch i = df := by unfold dfltF; rw [hdf]
    show (if pyEqVal (Value.numV f) (Value.numV df) = true then _ else _) =
      Except.ok (Value.numV f, eqNum f (dfltF sch i))
    rw [hdflt]
    have hfe : feq f df = false ∨ feq f df = true := by
      cases feq f df
      · exact Or.inl rfl
      · exact Or.inr rfl
    rcases hfe with hfeq | hfeq
    · rw [if_neg (by simp [pyEqVal, hfeq])]
      show (if isNanF f = true then _ else _) = _
      have hna : isNanF f = false ∨ isNanF f = true := by
        cases isNanF f
        · exact Or.inl rfl
        · exact Or.inr rfl
      rcases hna with hnan | hnan
      · rw [if_neg (by simp [hnan])]
        unfold eqNum
        rw [hfeq, hnan]
        rfl
      · rw [if_pos hnan]
        show Except.ok (Value.numV f, isNanF df) = _
        unfold eqNum
        rw [hfeq, hnan]
        rfl
    · rw [if_pos (by simp [pyEqVal, hfeq])]
      unfold eqNum
      rw [hfeq]
      rfl

theorem convert_txt {sch : Schema} (hwf : sch.wf = true) {i : Nat}
    (hi : i < sch.N) (hn : sch.numbers.getD i false = false) (v : Value) :
    convert sch i v =
      Except.ok (v, pyEqVal v (sch.defaults.getD i default)) := by
  have hilen : i < sch.defaults.length := hi
  have hnlen : i < sch.numbers.length := by rw [wf_numbers_length hwf]; exact hi
  unfold convert
  rw [listGetE_lt sch.defaults default hilen, listGetE_lt sch.numbers false hnlen]
  show (if sch.numbers.getD i false = true then _ else _) = _
  rw [hn]
  rfl

theorem convert_oob {sch : Schema} {i : Nat} (hi : sch.N ≤ i) (v : Value) :
    convert sch i v = Except.error Err.indexError := by
  unfold convert
  rw [listGetE_ge sch.defaults hi]
  rfl

theorem convert_ok_lt {sch : Schema} {i : Nat} {v : Value} {p}
    (h : convert sch i v = Except.ok p) : i < sch.N := by
  by_contra hge
  rw [convert_oob (Nat.le_of_not_lt hge)] at h
  cases h

theorem convDefaults_length {numbers : List Bool} :
    ∀ {i : Nat} {ds out : List Value},
      convDefaults numbers i ds = Except.ok out → out.length = ds.length := by
  intro i ds
  induction ds generalizing i with
  | nil =>
    intro out h
    cases h
    rfl
  | cons d ds ih =>
    intro out h
    unfold convDefaults at h
    cases hnb : listGetE numbers i with
    | error e => rw [hnb] at h; cases h
    | ok nb =>
      rw [hnb] at h
      by_cases hb : nb = true
      · subst hb
        cases hf : np_float64 d with
        | none => simp only [hf] at h; cases h
        | some f =>
          simp only [hf] at h
          cases hrest : convDefaults numbers (i + 1) ds with
          | error e => rw [hrest] at h; cases h
          | ok rest =>
            rw [hrest] at h
            cases h
            simp [ih hrest]
      · have hb' : nb = false := Bool.eq_false_iff.mpr hb
        subst hb'
        simp only [Bool.false_eq_true, if_false] at h
        cases hrest : convDefaults numbers (i + 1) ds with
        | error e => rw [hrest] at h; cases h
        | ok rest =>
          rw [hrest] at h
          cases h
          simp [ih hrest]

theorem get_header_nocopy {sch : Schema} (hwf : sch.wf = true) :
    get_header sch.header sch.defaults (some sch.numbers) false =
      Except.ok sch := by
  unfold get_header
  rw [if_neg (by rw [wf_header_length hwf, wf_numbers_length hwf]; exact fun h => h rfl)]
  show (match (Except.ok sch.defaults : Except Err (List Value)) with
    | Except.error e => Except.error e
    | Except.ok defs => _) = _
  show (if sch.header.length ≠ sch.defaults.length then _ else _) = _
  rw [if_neg (by rw [wf_header_length hwf]; exact fun h => h rfl)]

/-! Lemmas about well-typed values and the `from_dense` ingestion loop. -/

theorem wt_num_parse {sch : Schema} {i : Nat} {v : Value}
    (hn : sch.numbers.getD i false = true) (hwt : wtVal sch i v = true) :
    ∃ f, np_float64 v = some f ∧ canonF f = true := by
  unfold wtVal at hwt
  rw [hn, if_pos rfl] at hwt
  cases v with
  | numV f => exact ⟨f, rfl, hwt⟩
  | strV s =>
    have hwt' : (strToFloat s).isSome = true := hwt
    cases hf : strToFloat s with
    | none => rw [hf] at hwt'; cases hwt'
    | some f => exact ⟨f, hf, strToFloat_canonF hf⟩

theorem wt_txt_str {sch : Schema} {i : Nat} {v : Value}
    (hn : sch.numbers.getD i false = false) (hwt : wtVal sch i v = true) :
    ∃ s, v = Value.strV s := by
  unfold wtVal at hwt
  rw [hn] at hwt
  simp only [Bool.false_eq_true, if_false] at hwt
  cases v with
  | numV f => cases hwt
  | strV s => exact ⟨s, rfl⟩

theorem convert_wt_ok {sch : Schema} (hwf : sch.wf = true) {i : Nat}
    (hi : i < sch.N) {v : Value} (hwt : wtVal sch i v = true) :
    ∃ p, convert sch i v = Except.ok p := by
  cases hn : sch.numbers.getD i false with
  | true =>
    obtain ⟨f, hf, _⟩ := wt_num_parse hn hwt
    exact ⟨_, by rw [convert_num hwf hi hn, hf]⟩
  | false =>
    exact ⟨_, convert_txt hwf hi hn v⟩

theorem fdSpec_cons (sch : Schema) (i : Nat) (v : Value) (vs : List Value) :
    fdSpec sch i (v :: vs) =
      (match convert sch i v with
       | Except.ok (v', false) => (i, v') :: fdSpec sch (i + 1) vs
       | _ => fdSpec sch (i + 1) vs) := by
  rfl

theorem fd_go_ok {sch : Schema} : ∀ (vs : List Value) (i : Nat) (acc : RowMap),
    (∀ j, j < vs.length → ∃ p, convert sch (i + j) (vs.getD j default) = Except.ok p) →
    (∀ q ∈ acc, q.1 < i) →
    fd_go sch i vs acc = (none, acc ++ fdSpec sch i vs) := by
  intro vs
  induction vs with
  | nil =>
    intro i acc _ _
    simp [fd_go, fdSpec]
  | cons v vs ih =>
    intro i acc hcv hkeys
    obtain ⟨p, hp⟩ := hcv 0 (by simp)
    rw [Nat.add_zero] at hp
    have hv0 : (v :: vs).getD 0 default = v := rfl
    rw [hv0] at hp
    obtain ⟨v', is_d⟩ := p
    have htail : ∀ j, j < vs.length →
        ∃ p, convert sch (i + 1 + j) (vs.getD j default) = Except.ok p := by
      intro j hj
      have := hcv (j + 1) (by simpa using Nat.succ_lt_succ hj)
      rw [show i + (j + 1) = i + 1 + j by omega] at this
      exact this
    unfold fd_go
    rw [hp]
    cases is_d with
    | true =>
      have hkeys' : ∀ q ∈ acc, q.1 < i + 1 := fun q hq => Nat.lt_succ_of_lt (hkeys q hq)
      show fd_go sch (i + 1) vs (if true = true then acc else dictSet acc i v') =
        (none, acc ++ fdSpec sch i (v :: vs))
      rw [if_pos rfl]
      have hspec : fdSpec sch i (v :: vs) = fdSpec sch (i + 1) vs := by
        rw [fdSpec_cons, hp]
      rw [hspec]
      exact ih (i + 1) acc htail hkeys'
    | false =>
      show fd_go sch (i + 1) vs (if false = true then acc else dictSet acc i v') =
        (none, acc ++ fdSpec sch i (v :: vs))
      rw [if_neg (by simp)]
      have hfresh : dictGet acc i = none :=
        dictGet_none_of_forall fun q hq => by have := hkeys q hq; omega
      rw [dictSet_fresh hfresh]
      have hkeys' : ∀ q ∈ acc ++ [(i, v')], q.1 < i + 1 := by
        intro q hq
        rcases List.mem_append.mp hq with hq | hq
        · exact Nat.lt_succ_of_lt (hkeys q hq)
        · simp only [List.mem_singleton] at hq
          rw [hq]
          exact Nat.lt_succ_self i
      rw [ih (i + 1) (acc ++ [(i, v')]) htail hkeys']
      have hspec : fdSpec sch i (v :: vs) = (i, v') :: fdSpec sch (i + 1) vs := by
        rw [fdSpec_cons, hp]
      rw [hspec, List.append_assoc]
      rfl

theorem fdSpec_keys {sch : Schema} : ∀ (vs : List Value) (i : Nat) {p : Nat × Value},
    p ∈ fdSpec sch i vs →
      i ≤ p.1 ∧ p.1 < i + vs.length ∧
        convert sch p.1 (vs.getD (p.1 - i) default) = Except.ok (p.2, false) := by
  intro vs
  induction vs with
  | nil =>
    intro i p hp
    exact absurd hp (by simp [fdSpec])
  | cons v vs ih =>
    intro i p hp
    have hlen : (v :: vs).length = vs.length + 1 := rfl
    have hstep : p ∈ fdSpec sch (i + 1) vs →
        i ≤ p.1 ∧ p.1 < i + (v :: vs).length ∧
          convert sch p.1 ((v :: vs).getD (p.1 - i) default) = Except.ok (p.2, false) := by
      intro hp'
      obtain ⟨h1, h2, h3⟩ := ih (i + 1) hp'
      refine ⟨by omega, by omega, ?_⟩
      have hgt : p.1 - i = (p.1 - (i + 1)) + 1 := by omega
      rw [hgt]
      exact h3
    rw [fdSpec_cons] at hp
    cases hc : convert sch i v with
    | error e =>
      rw [hc] at hp
      exact hstep hp
    | ok q =>
      obtain ⟨v', is_d⟩ := q
      cases is_d with
      | true =>
        rw [hc] at hp
        exact hstep hp
      | false =>
        rw [hc] at hp
        rcases List.mem_cons.mp hp with hpe | hp'
        · rw [hpe]
          refine ⟨Nat.le_refl i, ?_, ?_⟩
          · show i < i + (v :: vs).length
            rw [hlen]
            omega
          · show convert sch i ((v :: vs).getD (i - i) default) = Except.ok (v', false)
            rw [Nat.sub_self]
            exact hc
        · exact hstep hp'

theorem fdSpec_get_lt {sch : Schema} (vs : List Value) {i k : Nat} (hk : k < i) :
    dictGet (fdSpec sch i vs) k = none :=
  dictGet_none_of_forall fun p hp => by
    have := (fdSpec_keys vs i hp).1
    omega

theorem fdSpec_get_at {sch : Schema} : ∀ (vs : List Value) (i j : Nat),
    j < vs.length →
    dictGet (fdSpec sch i vs) (i + j) =
      (match convert sch (i + j) (vs.getD j default) with
       | Except.ok (v', false) => some v'
       | _ => none) := by
  intro vs
  induction vs with
  | nil =>
    intro i j hj
    exact absurd hj (by simp)
  | cons v vs ih =>
    intro i j hj
    cases j with
    | zero =>
      rw [Nat.add_zero]
      show dictGet (fdSpec sch i (v :: vs)) i =
        (match convert sch i v with
         | Except.ok (v', false) => some v'
         | _ => none)
      unfold fdSpec
      cases hc : convert sch i v with
      | error e => exact fdSpec_get_lt vs (Nat.lt_succ_self i)
      | ok q =>
        obtain ⟨v', is_d⟩ := q
        cases is_d with
        | true => exact fdSpec_get_lt vs (Nat.lt_succ_self i)
        | false => rw [dictGet_cons, if_pos rfl]
    | succ j =>
      have hj' : j < vs.length := by simpa using Nat.lt_of_succ_lt_succ hj
      have hshift : i + (j + 1) = (i + 1) + j := by omega
      have hgd : (v :: vs).getD (j + 1) default = vs.getD j default := rfl
      rw [hgd, hshift]
      unfold fdSpec
      cases hc : convert sch i v with
      | error e => exact ih (i + 1) j hj'
      | ok q =>
        obtain ⟨v', is_d⟩ := q
        cases is_d with
        | true => exact ih (i + 1) j hj'
        | false =>
          rw [dictGet_cons, if_neg (by omega)]
          exact ih (i + 1) j hj'

theorem dense_view_length (sch : Schema) (m : RowMap) :
    (dense_view sch m).length = sch.N := by
  unfold dense_view
  rw [List.length_map, List.length_range]

theorem dense_view_getD (sch : Schema) (m : RowMap) {j : Nat} (hj : j < sch.N) :
    (dense_view sch m).getD j default =
      (dictGet m j).getD (sch.defaults.getD j default) := by
  unfold dense_view
  rw [List.getD_eq_getElem?_getD, List.getElem?_map]
  rw [List.getElem?_range hj]
  rfl

theorem from_dense_snd {sch : Schema} {V : List Value}
    (h : ∀ j, j < V.length → ∃ p, convert sch j (V.getD j default) = Except.ok p) :
    (from_dense sch V).2 = fdSpec sch 0 V := by
  unfold from_dense
  rw [fd_go_ok V 0 [] (by simpa using h) (by simp)]
  cases check_range sch ((V.length - 1 : Nat) : Int) with
  | error e => simp
  | ok u => simp

theorem claimEqAt_num {sch : Schema} {i : Nat}
    (hn : sch.numbers.getD i false = true) (a b : Value) :
    claimEqAt sch i a b =
      (match np_float64 a, np_float64 b with
       | some f, some g => eqNum f g
       | _, _ => false) := by
  unfold claimEqAt
  rw [hn]
  rfl

theorem claimEqAt_txt {sch : Schema} {i : Nat}
    (hn : sch.numbers.getD i false = false) (a b : Value) :
    claimEqAt sch i a b = decide (a = b) := by
  unfold claimEqAt
  rw [hn]
  rfl

theorem claimEq_fdSpec {sch : Schema} (hwf : sch.wf = true) {V : List Value}
    (hlen : V.length = sch.N)
    (hwt : ∀ j, j < V.length → wtVal sch j (V.getD j default) = true)
    {j : Nat} (hj : j < sch.N) :
    claimEqAt sch j
      ((dictGet (fdSpec sch 0 V) j).getD (sch.defaults.getD j default))
      (V.getD j default) = true := by
  have hjV : j < V.length := by omega
  have hget := @fdSpec_get_at sch V 0 j hjV
  rw [Nat.zero_add] at hget
  cases hn : sch.numbers.getD j false with
  | true =>
    obtain ⟨f, hf, _⟩ := wt_num_parse hn (hwt j hjV)
    obtain ⟨df, hdf, _⟩ := wf_num_default hwf hj hn
    have hdflt : dfltF sch j = df := by unfold dfltF; rw [hdf]
    have hc := convert_num hwf hj hn (V.getD j default)
    rw [hf, hdflt] at hc
    have hc2 : convert sch j (V.getD j default) =
        Except.ok (Value.numV f, eqNum f df) := by rw [hc]
    rw [hc2] at hget
    cases hed : eqNum f df with
    | true =>
      rw [hed] at hget
      have hnone : dictGet (fdSpec sch 0 V) j = none := hget
      rw [hnone, Option.getD_none, hdf, claimEqAt_num hn]
      show (match some df, np_float64 (V.getD j default) with
        | some f, some g => eqNum f g
        | _, _ => false) = true
      rw [hf]
      show eqNum df f = true
      rw [eqNum_symm]
      exact hed
    | false =>
      rw [hed] at hget
      have hsome : dictGet (fdSpec sch 0 V) j = some (Value.numV f) := hget
      rw [hsome, Option.getD_some, claimEqAt_num hn]
      show (match some f, np_float64 (V.getD j default) with
        | some f, some g => eqNum f g
        | _, _ => false) = true
      rw [hf]
      exact eqNum_refl f
  | false =>
    obtain ⟨s, hs⟩ := wt_txt_str hn (hwt j hjV)
    obtain ⟨ds, hds⟩ := wf_txt_default hwf hj hn
    have hc := convert_txt hwf hj hn (V.getD j default)
    rw [hs, hds] at hc
    rw [hs] at hget
    rw [hc] at hget
    by_cases hsd : s = ds
    · have hpy : pyEqVal (Value.strV s) (Value.strV ds) = true := by
        simp [pyEqVal, hsd]
      rw [hpy] at hget
      have hnone : dictGet (fdSpec sch 0 V) j = none := hget
      rw [hnone, Option.getD_none, hds, claimEqAt_txt hn, hs, hsd]
      simp
    · have hpy : pyEqVal (Value.strV s) (Value.strV ds) = false := by
        simp [pyEqVal, hsd]
      rw [hpy] at hget
      have hsome : dictGet (fdSpec sch 0 V) j = some (Value.strV s) := hget
      rw [hsome, Option.getD_some, claimEqAt_txt hn, hs]
      simp

/-- C3: over a valid schema with `N` columns, `from_dense` on a well-typed
dense sequence of length `N` (every numeric value parseable as a float)
leaves a row whose iteration yields exactly `N` values reproducing the
input column by column under the default-equality rule (NaN matching NaN
on numeric columns, exact equality on text columns). -/
theorem C3_from_dense_iterate (sch : Schema) (hwf : sch.wf = true)
    (V : List Value) (hlen : V.length = sch.N)
    (hwt : ∀ j, j < V.length → wtVal sch j (V.getD j default) = true) :
    (dense_view sch (from_dense sch V).2).length = sch.N ∧
    ∀ j, j < sch.N →
      claimEqAt sch j ((dense_view sch (from_dense sch V).2).getD j default)
        (V.getD j default) = true := by
  have hcv : ∀ j, j < V.length →
      ∃ p, convert sch j (V.getD j default) = Except.ok p := by
    intro j hj
    exact convert_wt_ok hwf (by omega) (hwt j hj)
  have hsnd := from_dense_snd hcv
  refine ⟨dense_view_length sch _, ?_⟩
  intro j hj
  rw [hsnd, dense_view_getD sch _ hj]
  exact claimEq_fdSpec hwf hlen hwt hj

/-! Range checks, element access, and the per-claim theorems for setting
defaults, error atomicity, and index errors. -/

theorem check_range_ok {sch : Schema} {i : Int} (h0 : 0 ≤ i)
    (hN : i < (sch.N : Int)) : check_range sch i = Except.ok () := by
  unfold check_range
  rw [if_neg (by omega)]

theorem check_range_err {sch : Schema} {i : Int}
    (h : i < 0 ∨ (sch.N : Int) ≤ i) : check_range sch i = Except.error Err.indexError := by
  unfold check_range
  rw [if_pos h]

theorem pyListGet_nonneg {α : Type} (l : List α) (d : α) {i : Int} (h0 : 0 ≤ i)
    (hlt : i.toNat < l.length) : pyListGet l i = Except.ok (l.getD i.toNat d) := by
  unfold pyListGet
  rw [if_pos h0, listGetE_lt l d hlt]

theorem convert_default {sch : Schema} (hwf : sch.wf = true) {i : Nat}
    (hi : i < sch.N) :
    ∃ v', convert sch i (sch.defaults.getD i default) = Except.ok (v', true) := by
  cases hn : sch.numbers.getD i false with
  | true =>
    obtain ⟨df, hdf, _⟩ := wf_num_default hwf hi hn
    rw [hdf]
    rw [convert_num hwf hi hn]
    refine ⟨Value.numV df, ?_⟩
    have hnp : np_float64 (Value.numV df) = some df := rfl
    rw [hnp]
    have hdflt : dfltF sch i = df := by unfold dfltF; rw [hdf]
    show Except.ok (Value.numV df, eqNum df (dfltF sch i)) = _
    rw [hdflt, eqNum_refl]
  | false =>
    obtain ⟨ds, hds⟩ := wf_txt_default hwf hi hn
    rw [convert_txt hwf hi hn]
    refine ⟨sch.defaults.getD i default, ?_⟩
    rw [hds]
    show Except.ok (Value.strV ds, pyEqVal (Value.strV ds) (Value.strV ds)) = _
    have hpy : pyEqVal (Value.strV ds) (Value.strV ds) = true := by simp [pyEqVal]
    rw [hpy]

theorem setitem_default {sch : Schema} (hwf : sch.wf = true) {i : Nat}
    (hi : i < sch.N) (vals : RowMap) :
    setitem sch vals (i : Int) (sch.defaults.getD i default) =
      (none, dictDel vals i) := by
  obtain ⟨v', hcv⟩ := convert_default hwf hi
  unfold setitem
  rw [check_range_ok (by omega) (by omega)]
  show (match convert sch (i : Int).toNat (sch.defaults.getD i default) with
    | Except.error e => (some e, vals)
    | Except.ok (v', is_d) =>
      (none, if is_d = true then dictDel vals (i : Int).toNat
             else dictSet vals (i : Int).toNat v')) = _
  rw [Int.toNat_natCast, hcv]
  rfl

/-- C9: setting an in-range column to its own default removes any stored
entry there, a following `get` returns the default, and repeating the
`set` leaves the row unchanged. -/
theorem C9_set_default (sch : Schema) (hwf : sch.wf = true) (vals : RowMap)
    (i : Nat) (hi : i < sch.N) :
    (setitem sch vals (i : Int) (sch.defaults.getD i default)).1 = none ∧
    dictGet (setitem sch vals (i : Int) (sch.defaults.getD i default)).2 i = none ∧
    getitem sch (setitem sch vals (i : Int) (sch.defaults.getD i default)).2 (i : Int) =
      Except.ok (sch.defaults.getD i default) ∧
    setitem sch (setitem sch vals (i : Int) (sch.defaults.getD i default)).2 (i : Int)
        (sch.defaults.getD i default) =
      (none, (setitem sch vals (i : Int) (sch.defaults.getD i default)).2) := by
  rw [setitem_default hwf hi vals]
  refine ⟨rfl, dictGet_dictDel_self vals i, ?_, ?_⟩
  · unfold getitem
    rw [if_pos (by omega : (0 : Int) ≤ (i : Int)), Int.toNat_natCast,
      dictGet_dictDel_self vals i]
    show pyListGet sch.defaults (i : Int) = _
    rw [pyListGet_nonneg sch.defaults default (by omega) (by rw [Int.toNat_natCast]; exact hi),
      Int.toNat_natCast]
  · rw [setitem_default hwf hi (dictDel vals i)]
    rw [dictDel_absent (dictGet_dictDel_self vals i)]

/-- Witness for C9 at a concrete schema, row, and index. -/
theorem C9_set_default_witness :
    dictGet (setitem ⟨[['a']], [Value.numV (F.fin 0 0)], [true]⟩
      [(0, Value.numV (F.fin 5 0))] (0 : Int) (Value.numV (F.fin 0 0))).2 0 = none :=
  (C9_set_default ⟨[['a']], [Value.numV (F.fin 0 0)], [true]⟩ (by decide)
    [(0, Value.numV (F.fin 5 0))] 0 (by decide)).2.1

/-- C10: a `set` or `delete` call that raises (range check or conversion
failure) leaves the stored mapping exactly as it was: both checks run
before any mutation. -/
theorem C10_error_atomicity (sch : Schema) (vals : RowMap) (i : Int) (v : Value) :
    ((setitem sch vals i v).1.isSome → (setitem sch vals i v).2 = vals) ∧
    ((delitem sch vals i).1.isSome → (delitem sch vals i).2 = vals) := by
  constructor
  · intro hs
    unfold setitem at *
    cases hr : check_range sch i with
    | error e => rfl
    | ok u =>
      rw [hr] at hs
      cases hc : convert sch i.toNat v with
      | error e => rfl
      | ok p =>
        obtain ⟨v', is_d⟩ := p
        rw [hc] at hs
        exact Bool.noConfusion (show false = true from hs)
  · intro hs
    unfold delitem at *
    cases hr : check_range sch i with
    | error e => rfl
    | ok u =>
      rw [hr] at hs
      exact Bool.noConfusion (show false = true from hs)

/-- Witness for C10 at a concrete out-of-range set. -/
theorem C10_error_atomicity_witness :
    (setitem ⟨[['a']], [Value.strV ['d']], [false]⟩ [(0, Value.strV ['x'])]
      (5 : Int) (Value.strV ['y'])).1.isSome = true ∧
    (setitem ⟨[['a']], [Value.strV ['d']], [false]⟩ [(0, Value.strV ['x'])]
      (5 : Int) (Value.strV ['y'])).2 = [(0, Value.strV ['x'])] :=
  ⟨by decide,
    (C10_error_atomicity ⟨[['a']], [Value.strV ['d']], [false]⟩
      [(0, Value.strV ['x'])] 5 (Value.strV ['y'])).1 (by decide)⟩

theorem forall_of_dictGet_none {d : RowMap} {j : Nat} (h : dictGet d j = none) :
    ∀ p ∈ d, ¬ p.1 = j := by
  intro p hp
  unfold dictGet at h
  cases hf : List.find? (fun p => p.1 = j) d with
  | some q => rw [hf] at h; cases h
  | none =>
    have := List.find?_eq_none.mp hf p hp
    simpa using this

/-- Counterexample to C5: on a one-column schema, `get(-1)` does not fail
with OutOfRange — Python's negative list indexing silently returns the
last default. -/
theorem C5_negative_get_cex :
    (-1 : Int) < 0 ∧
    getitem ⟨[['a']], [Value.strV ['d']], [false]⟩ [] (-1) =
      Except.ok (Value.strV ['d']) := by
  constructor
  · decide
  · rfl

/-- C5 amended: `set` and `delete` fail with OutOfRange for every index
outside `[0, N)`; `get` fails for `i ≥ N` and for `i < -N`, but for
`-N ≤ i < 0` it returns `defaults[N + i]` by Python negative indexing
(given that the row stores only in-range keys). -/
theorem C5_index_errors (sch : Schema) (vals : RowMap)
    (hkeys : ∀ p ∈ vals, p.1 < sch.N) (i : Int) :
    (i < 0 ∨ (sch.N : Int) ≤ i →
      (∀ v, setitem sch vals i v = (some Err.indexError, vals)) ∧
      delitem sch vals i = (some Err.indexError, vals)) ∧
    ((sch.N : Int) ≤ i → getitem sch vals i = Except.error Err.indexError) ∧
    (i + (sch.N : Int) < 0 → getitem sch vals i = Except.error Err.indexError) ∧
    (i < 0 → 0 ≤ i + (sch.N : Int) →
      getitem sch vals i =
        Except.ok (sch.defaults.getD (i + (sch.N : Int)).toNat default)) := by
  have hlen : sch.defaults.length = sch.N := rfl
  refine ⟨?_, ?_, ?_, ?_⟩
  · intro hout
    constructor
    · intro v
      unfold setitem
      rw [check_range_err hout]
    · unfold delitem
      rw [check_range_err hout]
  · intro hge
    unfold getitem
    rw [if_pos (by omega)]
    have hnone : dictGet vals i.toNat = none :=
      dictGet_none_of_forall fun p hp => by
        have := hkeys p hp
        omega
    rw [hnone]
    unfold pyListGet
    rw [if_pos (by omega), listGetE_ge sch.defaults (by omega)]
  · intro hlt
    unfold getitem
    rw [if_neg (by omega)]
    unfold pyListGet
    rw [if_neg (by omega), if_neg (by rw [hlen]; omega)]
  · intro hneg hge
    unfold getitem
    rw [if_neg (by omega)]
    unfold pyListGet
    rw [if_neg (by omega), if_pos (by rw [hlen]; omega)]
    rw [listGetE_lt sch.defaults default (by rw [hlen]; omega)]
    rw [show (i + (sch.defaults.length : Int)).toNat = (i + (sch.N : Int)).toNat by rw [hlen]]

/-- Witness for the amended C5 at a concrete schema and out-of-range
indices. -/
theorem C5_index_errors_witness :
    delitem ⟨[['a']], [Value.strV ['d']], [false]⟩ [] (3 : Int) =
      (some Err.indexError, []) :=
  ((C5_index_errors ⟨[['a']], [Value.strV ['d']], [false]⟩ [] (by intro p hp; cases hp)
    3).1 (by decide)).2

theorem fd_go_err {sch : Schema} : ∀ (vs : List Value) (i : Nat) (acc : RowMap),
    i ≤ sch.N → sch.N - i < vs.length →
    (∀ j, j < sch.N - i → ∃ p, convert sch (i + j) (vs.getD j default) = Except.ok p) →
    (fd_go sch i vs acc).1 = some Err.indexError := by
  intro vs
  induction vs with
  | nil =>
    intro i acc _ hlt _
    exact absurd hlt (by simp)
  | cons v vs ih =>
    intro i acc hle hlt hcv
    have hlen : (v :: vs).length = vs.length + 1 := rfl
    by_cases hiN : i = sch.N
    · subst hiN
      unfold fd_go
      rw [convert_oob (Nat.le_refl _)]
    · have hi : i < sch.N := by omega
      obtain ⟨p, hp⟩ := hcv 0 (by omega)
      rw [Nat.add_zero] at hp
      have hv0 : (v :: vs).getD 0 default = v := rfl
      rw [hv0] at hp
      obtain ⟨v', is_d⟩ := p
      unfold fd_go
      rw [hp]
      have htail : ∀ j, j < sch.N - (i + 1) →
          ∃ p, convert sch (i + 1 + j) (vs.getD j default) = Except.ok p := by
        intro j hj
        have := hcv (j + 1) (by omega)
        rw [show i + (j + 1) = i + 1 + j by omega] at this
        exact this
      cases is_d with
      | true =>
        show (fd_go sch (i + 1) vs (if true = true then acc else dictSet acc i v')).1 = _
        rw [if_pos rfl]
        exact ih (i + 1) acc (by omega) (by omega) htail
      | false =>
        show (fd_go sch (i + 1) vs (if false = true then acc else dictSet acc i v')).1 = _
        rw [if_neg (by simp)]
        exact ih (i + 1) (dictSet acc i v') (by omega) (by omega) htail

/-- Counterexample to C6: on a two-column schema, `from_dense` with a
one-value sequence (length 1 ≠ N = 2) raises nothing — the final check
only validates the last touched index. -/
theorem C6_short_row_cex :
    (from_dense ⟨[['a'], ['b']], [Value.numV (F.fin 0 0), Value.strV ['x']],
      [true, false]⟩ [Value.strV ['1']]).1 = none := by
  decide

/-- C6 amended: over a valid schema with parseable values, `from_dense`
raises OutOfRange exactly when the sequence is longer than `N`, or when
`N = 0` and the sequence is empty; every length from `1` to `N` (and the
empty sequence when `N > 0`) is accepted silently. -/
theorem C6_from_dense_length (sch : Schema) (hwf : sch.wf = true)
    (V : List Value)
    (hwt : ∀ j, j < V.length → j < sch.N → wtVal sch j (V.getD j default) = true) :
    (from_dense sch V).1 =
      (if sch.N < V.length ∨ (V.length = 0 ∧ sch.N = 0) then some Err.indexError
       else none) := by
  by_cases hLN : sch.N < V.length
  · rw [if_pos (Or.inl hLN)]
    have herr := @fd_go_err sch V 0 [] (Nat.zero_le _) (by omega)
      (by
        intro j hj
        have hj' : j < sch.N := by omega
        rw [Nat.zero_add]
        exact convert_wt_ok hwf hj' (hwt j (by omega) hj'))
    unfold from_dense
    cases hfd : fd_go sch 0 V [] with
    | mk fst snd =>
      rw [hfd] at herr
      cases fst with
      | none =>
        exact Option.noConfusion
          (show (none : Option Err) = some Err.indexError from herr)
      | some e => exact herr
  · have hok := @fd_go_ok sch V 0 []
      (by
        intro j hj
        have hj' : j < sch.N := by omega
        rw [Nat.zero_add]
        exact convert_wt_ok hwf hj' (hwt j hj hj'))
      (by simp)
    unfold from_dense
    rw [hok]
    cases hV : V.length with
    | zero =>
      by_cases hN0 : sch.N = 0
      · rw [if_pos (Or.inr ⟨rfl, hN0⟩)]
        rw [@check_range_err sch ((0 - 1 : Nat) : Int)
          (show ((0 - 1 : Nat) : Int) < 0 ∨ (sch.N : Int) ≤ ((0 - 1 : Nat) : Int) by omega)]
      · rw [if_neg (by omega)]
        rw [@check_range_ok sch ((0 - 1 : Nat) : Int) (by omega)
          (show ((0 - 1 : Nat) : Int) < (sch.N : Int) by omega)]
    | succ L =>
      rw [if_neg (by omega)]
      rw [@check_range_ok sch ((L + 1 - 1 : Nat) : Int) (by omega)
        (show ((L + 1 - 1 : Nat) : Int) < (sch.N : Int) by omega)]

/-- Witness for the amended C6: a too-long row over a one-column schema
does raise OutOfRange. -/
theorem C6_from_dense_length_witness :
    (from_dense ⟨[['a']], [Value.strV ['d']], [false]⟩
      [Value.strV ['x'], Value.strV ['y']]).1 = some Err.indexError := by
  have h := C6_from_dense_length ⟨[['a']], [Value.strV ['d']], [false]⟩ (by decide)
    [Value.strV ['x'], Value.strV ['y']] (by decide)
  rw [h]
  decide

/-- Witness for C3 at the spec's concrete scenario: schema
`names=[a,b,c]`, `defaults=[0.0, x, nan]`, dense row `[5.0, y, nan]`. -/
theorem C3_from_dense_iterate_witness :
    (dense_view ⟨[['a'], ['b'], ['c']],
        [Value.numV (F.fin 0 0), Value.strV ['x'], Value.numV F.nan],
        [true, false, true]⟩
      (from_dense ⟨[['a'], ['b'], ['c']],
        [Value.numV (F.fin 0 0), Value.strV ['x'], Value.numV F.nan],
        [true, false, true]⟩
        [Value.numV (F.fin 5 0), Value.strV ['y'], Value.numV F.nan]).2).length = 3 ∧
    claimEqAt ⟨[['a'], ['b'], ['c']],
        [Value.numV (F.fin 0 0), Value.strV ['x'], Value.numV F.nan],
        [true, false, true]⟩ 2
      ((dense_view ⟨[['a'], ['b'], ['c']],
        [Value.numV (F.fin 0 0), Value.strV ['x'], Value.numV F.nan],
        [true, false, true]⟩
      (from_dense ⟨[['a'], ['b'], ['c']],
        [Value.numV (F.fin 0 0), Value.strV ['x'], Value.numV F.nan],
        [true, false, true]⟩
        [Value.numV (F.fin 5 0), Value.strV ['y'], Value.numV F.nan]).2).getD 2 default)
      ([Value.numV (F.fin 5 0), Value.strV ['y'], Value.numV F.nan].getD 2 default) = true :=
  ⟨(C3_from_dense_iterate _ (by decide) _ (by decide)
      (by intro j hj; have hj3 : j < 3 := hj; interval_cases j <;> decide)).1,
    (C3_from_dense_iterate _ (by decide) _ (by decide)
      (by intro j hj; have hj3 : j < 3 := hj; interval_cases j <;> decide)).2 2 (by decide)⟩

theorem claimDefEq_of_convert {sch : Schema} (hwf : sch.wf = true) {k : Nat}
    {v0 w : Value} (h : convert sch k v0 = Except.ok (w, false)) :
    claimDefEq sch k w = false := by
  have hk : k < sch.N := convert_ok_lt h
  cases hn : sch.numbers.getD k false with
  | true =>
    obtain ⟨df, hdf, _⟩ := wf_num_default hwf hk hn
    rw [convert_num hwf hk hn] at h
    cases hf : np_float64 v0 with
    | none => rw [hf] at h; cases h
    | some f =>
      rw [hf] at h
      have h2 : Except.ok (ε := Err) (Value.numV f, eqNum f (dfltF sch k)) =
          Except.ok (w, false) := h
      injection h2 with h3
      have hw : Value.numV f = w := congrArg Prod.fst h3
      have hed : eqNum f (dfltF sch k) = false := congrArg Prod.snd h3
      have hdflt : dfltF sch k = df := by unfold dfltF; rw [hdf]
      rw [hdflt] at hed
      unfold claimDefEq
      rw [hn, if_pos rfl, hdf, ← hw]
      show (pyEqVal (Value.numV f) (Value.numV df) ||
        (nanB (Value.numV f) && nanB (Value.numV df))) = false
      have hpy : pyEqVal (Value.numV f) (Value.numV df) = feq f df := rfl
      have hnb : nanB (Value.numV f) = isNanF f := rfl
      have hnb2 : nanB (Value.numV df) = isNanF df := rfl
      rw [hpy, hnb, hnb2]
      exact hed
  | false =>
    obtain ⟨ds, hds⟩ := wf_txt_default hwf hk hn
    rw [convert_txt hwf hk hn] at h
    have h2 : Except.ok (ε := Err) (v0, pyEqVal v0 (sch.defaults.getD k default)) =
        Except.ok (w, false) := h
    injection h2 with h3
    have hw : v0 = w := congrArg Prod.fst h3
    have hpy : pyEqVal v0 (sch.defaults.getD k default) = false := congrArg Prod.snd h3
    rw [hds] at hpy
    unfold claimDefEq
    rw [hn]
    simp only [Bool.false_eq_true, if_false]
    rw [hds, ← hw]
    cases v0 with
    | numV f => simp
    | strV s =>
      have hne : ¬ s = ds := by
        intro hsd
        rw [hsd] at hpy
        simp [pyEqVal] at hpy
      simp [hne]

theorem RowInv_insert {sch : Schema} {m : RowMap} {k : Nat} {w : Value}
    (hm : RowInv sch m = true) (hw : claimDefEq sch k w = false) :
    RowInv sch (dictSet m k w) = true := by
  rw [RowInv, List.all_eq_true]
  intro p hp
  rcases mem_dictSet hp with rfl | hp'
  · simp [hw]
  · exact List.all_eq_true.mp hm p hp'

theorem RowInv_del {sch : Schema} {m : RowMap} (k : Nat)
    (hm : RowInv sch m = true) : RowInv sch (dictDel m k) = true := by
  rw [RowInv, List.all_eq_true]
  intro p hp
  exact List.all_eq_true.mp hm p (mem_dictDel hp)

theorem add_entry_inv {sch : Schema} (hwf : sch.wf = true) {acc acc' : RowMap}
    {ix : Ixv} {v : Value} (hm : RowInv sch acc = true)
    (h : add_entry sch acc ix v = Except.ok acc') : RowInv sch acc' = true := by
  unfold add_entry at h
  cases hfix : pyIntOf ix with
  | error e =>
    simp only [hfix] at h
    exact Except.noConfusion h
  | ok fix =>
    simp only [hfix] at h
    cases hr : check_range sch fix with
    | error e =>
      simp only [hr] at h
      exact Except.noConfusion h
    | ok u =>
      simp only [hr] at h
      cases hc : convert sch fix.toNat v with
      | error e =>
        simp only [hc] at h
        exact Except.noConfusion h
      | ok p =>
        obtain ⟨v', is_d⟩ := p
        simp only [hc] at h
        injection h with h3
        cases is_d with
        | true =>
          rw [if_pos rfl] at h3
          rw [← h3]
          exact hm
        | false =>
          rw [if_neg (by simp)] at h3
          rw [← h3]
          exact RowInv_insert hm (claimDefEq_of_convert hwf hc)

theorem init_coo_inv {sch : Schema} (hwf : sch.wf = true) :
    ∀ (coo : List (Ixv × Value)) (acc m : RowMap), RowInv sch acc = true →
      init_coo sch coo acc = Except.ok m → RowInv sch m = true := by
  intro coo
  induction coo with
  | nil =>
    intro acc m hacc h
    cases h
    exact hacc
  | cons e rest ih =>
    intro acc m hacc h
    obtain ⟨ix, v⟩ := e
    unfold init_coo at h
    cases ha : add_entry sch acc ix v with
    | error err => rw [ha] at h; cases h
    | ok acc' =>
      rw [ha] at h
      exact ih acc' m (add_entry_inv hwf hacc ha) h

theorem fd_go_inv {sch : Schema} (hwf : sch.wf = true) :
    ∀ (vs : List Value) (i : Nat) (acc : RowMap), RowInv sch acc = true →
      RowInv sch (fd_go sch i vs acc).2 = true := by
  intro vs
  induction vs with
  | nil =>
    intro i acc hacc
    exact hacc
  | cons v vs ih =>
    intro i acc hacc
    unfold fd_go
    cases hc : convert sch i v with
    | error e => exact hacc
    | ok p =>
      obtain ⟨v', is_d⟩ := p
      cases is_d with
      | true =>
        show RowInv sch (fd_go sch (i + 1) vs
          (if true = true then acc else dictSet acc i v')).2 = true
        rw [if_pos rfl]
        exact ih (i + 1) acc hacc
      | false =>
        show RowInv sch (fd_go sch (i + 1) vs
          (if false = true then acc else dictSet acc i v')).2 = true
        rw [if_neg (by simp)]
        exact ih (i + 1) (dictSet acc i v')
          (RowInv_insert hacc (claimDefEq_of_convert hwf hc))

/-- C4: over a valid schema the elision invariant holds after row
construction and after every mutating operation: no stored entry is
default-equal to its column's default (numeric: `==` or both NaN; text:
exact equality). -/
theorem C4_elision_invariant (sch : Schema) (hwf : sch.wf = true) :
    (∀ coo m, init_coo sch coo [] = Except.ok m → RowInv sch m = true) ∧
    (∀ V, RowInv sch (from_dense sch V).2 = true) ∧
    (∀ vals i v, RowInv sch vals = true →
      RowInv sch (setitem sch vals i v).2 = true) ∧
    (∀ vals i, RowInv sch vals = true →
      RowInv sch (delitem sch vals i).2 = true) ∧
    (∀ vals, RowInv sch (clear_row vals) = true) := by
  refine ⟨?_, ?_, ?_, ?_, ?_⟩
  · intro coo m h
    exact init_coo_inv hwf coo [] m rfl h
  · intro V
    have hfd := fd_go_inv hwf V 0 [] rfl
    unfold from_dense
    cases hgo : fd_go sch 0 V [] with
    | mk fst snd =>
      rw [hgo] at hfd
      cases fst with
      | some e => exact hfd
      | none =>
        cases check_range sch ((V.length - 1 : Nat) : Int) with
        | error e => exact hfd
        | ok u => exact hfd
  · intro vals i v hv
    unfold setitem
    cases check_range sch i with
    | error e => exact hv
    | ok u =>
      cases hc : convert sch i.toNat v with
      | error e => exact hv
      | ok p =>
        obtain ⟨v', is_d⟩ := p
        cases is_d with
        | true =>
          show RowInv sch (none, if true = true then dictDel vals i.toNat
            else dictSet vals i.toNat v').2 = true
          rw [if_pos rfl]
          exact RowInv_del _ hv
        | false =>
          show RowInv sch (none, if false = true then dictDel vals i.toNat
            else dictSet vals i.toNat v').2 = true
          rw [if_neg (by simp)]
          exact RowInv_insert hv (claimDefEq_of_convert hwf hc)
  · intro vals i hv
    unfold delitem
    cases check_range sch i with
    | error e => exact hv
    | ok u => exact RowInv_del _ hv
  · intro vals
    rfl

/-- Witness for C4 at a concrete schema and dense row. -/
theorem C4_elision_invariant_witness :
    RowInv ⟨[['a'], ['b']], [Value.numV (F.fin 0 0), Value.strV ['x']],
      [true, false]⟩
      (from_dense ⟨[['a'], ['b']], [Value.numV (F.fin 0 0), Value.strV ['x']],
        [true, false]⟩ [Value.strV ['7'], Value.strV ['x']]).2 = true :=
  (C4_elision_invariant ⟨[['a'], ['b']],
    [Value.numV (F.fin 0 0), Value.strV ['x']], [true, false]⟩ (by decide)).2.1
    [Value.strV ['7'], Value.strV ['x']]

theorem add_entry_ok_parts {sch : Schema} {acc acc' : RowMap} {ix : Ixv}
    {v : Value} (h : add_entry sch acc ix v = Except.ok acc') :
    ∃ fix v' is_d, pyIntOf ix = Except.ok fix ∧
      (0 ≤ fix ∧ fix < (sch.N : Int)) ∧
      convert sch fix.toNat v = Except.ok (v', is_d) ∧
      acc' = (if is_d then acc else dictSet acc fix.toNat v') := by
  unfold add_entry at h
  cases hfix : pyIntOf ix with
  | error e =>
    simp only [hfix] at h
    exact Except.noConfusion h
  | ok fix =>
    simp only [hfix] at h
    cases hr : check_range sch fix with
    | error e =>
      simp only [hr] at h
      exact Except.noConfusion h
    | ok u =>
      simp only [hr] at h
      cases hc : convert sch fix.toNat v with
      | error e =>
        simp only [hc] at h
        exact Except.noConfusion h
      | ok p =>
        obtain ⟨v', is_d⟩ := p
        simp only [hc] at h
        injection h with h3
        refine ⟨fix, v', is_d, rfl, ?_, hc, h3.symm⟩
        unfold check_range at hr
        by_cases hcond : fix < 0 ∨ (sch.N : Int) ≤ fix
        · rw [if_pos hcond] at hr
          exact Except.noConfusion hr
        · push_neg at hcond
          exact hcond

theorem init_coo_get {sch : Schema} : ∀ (coo : List (Ixv × Value)) (acc m : RowMap),
    init_coo sch coo acc = Except.ok m → ∀ i : Nat,
      dictGet m i = (match lastKeep sch i coo with
                     | some w => some w
                     | none => dictGet acc i) := by
  intro coo
  induction coo with
  | nil =>
    intro acc m h i
    cases h
    rfl
  | cons e rest ih =>
    intro acc m h i
    obtain ⟨ix, v⟩ := e
    unfold init_coo at h
    cases ha : add_entry sch acc ix v with
    | error err =>
      rw [ha] at h
      exact Except.noConfusion h
    | ok acc1 =>
      rw [ha] at h
      have hrec := ih acc1 m h i
      obtain ⟨fix, v', is_d, hfix, hrange, hc, hacc1⟩ := add_entry_ok_parts ha
      cases hlr : lastKeep sch i rest with
      | some w =>
        have hcons : lastKeep sch i ((ix, v) :: rest) = some w := by
          show (match lastKeep sch i rest with
            | some w => some w
            | none => _) = some w
          rw [hlr]
        rw [hcons]
        rw [hlr] at hrec
        exact hrec
      | none =>
        rw [hlr] at hrec
        have hrec2 : dictGet m i = dictGet acc1 i := hrec
        have hcons : lastKeep sch i ((ix, v) :: rest) =
            (match pyIntOf ix with
             | Except.ok fix =>
               if fix = (i : Int) then
                 match convert sch i v with
                 | Except.ok (v', false) => some v'
                 | _ => none
               else none
             | Except.error _ => none) := by
          show (match lastKeep sch i rest with
            | some w => some w
            | none => _) = _
          rw [hlr]
        rw [hcons, hfix]
        show dictGet m i =
          (match (if fix = (i : Int) then
              (match convert sch i v with
               | Except.ok (v', false) => some v'
               | _ => none)
            else none) with
           | some w => some w
           | none => dictGet acc i)
        by_cases hfi : fix = (i : Int)
        · rw [if_pos hfi]
          have hnat : fix.toNat = i := by omega
          have hci : convert sch i v = Except.ok (v', is_d) := by
            rw [← hnat]
            exact hc
          rw [hci]
          cases is_d with
          | true =>
            have ha1 : acc1 = acc := by rw [hacc1]; rfl
            rw [hrec2, ha1]
          | false =>
            have ha1 : acc1 = dictSet acc i v' := by rw [hacc1, hnat]; rfl
            rw [hrec2, ha1, dictGet_dictSet_self]
        · rw [if_neg hfi]
          have hne : ¬ fix.toNat = i := by omega
          cases is_d with
          | true =>
            have ha1 : acc1 = acc := by rw [hacc1]; rfl
            rw [hrec2, ha1]
          | false =>
            have ha1 : acc1 = dictSet acc fix.toNat v' := by rw [hacc1]; rfl
            rw [hrec2, ha1, dictGet_dictSet_ne acc hne v']

/-- Counterexample to C7: on a one-column schema with numeric default
`0.0`, the duplicate sequence `[(0, "5"), (0, "0")]` whose last entry is
default-equal leaves the earlier value `5.0` stored — `get(0)` returns
`5.0`, not the default, and an entry is stored. -/
theorem C7_duplicate_cex :
    init_coo ⟨[['a']], [Value.numV (F.fin 0 0)], [true]⟩
      [(Ixv.intIx 0, Value.strV ['5']), (Ixv.intIx 0, Value.strV ['0'])] [] =
      Except.ok [(0, Value.numV (F.fin 5 0))] ∧
    getitem ⟨[['a']], [Value.numV (F.fin 0 0)], [true]⟩
      [(0, Value.numV (F.fin 5 0))] 0 = Except.ok (Value.numV (F.fin 5 0)) := by
  constructor
  · rfl
  · rfl

/-- C7 amended: for each index, the stored value after `fromSparse`
construction is the converted value of the last entry for that index that
is not default-equal; if every entry for the index is default-equal (or
there is none), `get` returns the default — a later default-equal entry
does not erase an earlier stored value. -/
theorem C7_last_nondefault_wins (sch : Schema) (coo : List (Ixv × Value))
    (m : RowMap) (hinit : init_coo sch coo [] = Except.ok m) (i : Nat)
    (hi : i < sch.N) :
    getitem sch m (i : Int) =
      Except.ok ((lastKeep sch i coo).getD (sch.defaults.getD i default)) := by
  have hg := init_coo_get coo [] m hinit i
  unfold getitem
  rw [if_pos (by omega : (0 : Int) ≤ (i : Int)), Int.toNat_natCast]
  cases hlk : lastKeep sch i coo with
  | some w =>
    rw [hlk] at hg
    have hg2 : dictGet m i = some w := hg
    rw [hg2]
    rfl
  | none =>
    rw [hlk] at hg
    have hg2 : dictGet m i = none := by rw [hg]; rfl
    rw [hg2]
    show pyListGet sch.defaults (i : Int) =
      Except.ok (sch.defaults.getD i default)
    rw [pyListGet_nonneg sch.defaults default (by omega)
      (by rw [Int.toNat_natCast]; exact hi), Int.toNat_natCast]

/-- Witness for the amended C7: the last non-default duplicate wins. -/
theorem C7_last_nondefault_wins_witness :
    getitem ⟨[['a']], [Value.numV (F.fin 0 0)], [true]⟩
      [(0, Value.numV (F.fin 7 0))] (0 : Int) =
      Except.ok ((lastKeep ⟨[['a']], [Value.numV (F.fin 0 0)], [true]⟩ 0
        [(Ixv.intIx 0, Value.strV ['5']), (Ixv.intIx 0, Value.strV ['7'])]).getD
        ([Value.numV (F.fin 0 0)].getD 0 default)) :=
  C7_last_nondefault_wins ⟨[['a']], [Value.numV (F.fin 0 0)], [true]⟩
    [(Ixv.intIx 0, Value.strV ['5']), (Ixv.intIx 0, Value.strV ['7'])]
    [(0, Value.numV (F.fin 7 0))] (by rfl) 0 (by decide)

/-- C2, code bug: a well-formed file whose first line holds the column
names and whose second line the defaults.  Constructing the loader
without pre-supplied header and defaults reads both lines but then hands
`_get_header` the original `None` header argument instead of the line it
bound to `self._header`, so construction always fails with `TypeError`
(`list(None)`); the transport is closed by the `except` clause.  The
claim (and the spec) say the Schema is built from the two lines and
construction succeeds. -/
theorem C2_loader_header_bug :
    loader_init [[['a'], ['b']], [['0'], ['1']], [['0', ':', 'x']]]
      none none none true = (Except.error Err.typeError, true) := by
  rfl

/-- Counterexample to C8: names of length 1, an explicit numbers sequence
of length 1, defaults of length 2, with copying enabled — the length
mismatch surfaces as an `IndexError` from `numbers[fix]` inside the
defaults coercion, not as the `SchemaMismatch` `ValueError`. -/
theorem C8_mismatch_cex :
    get_header [['h']] [Value.strV ['a'], Value.strV ['b']] (some [false]) true =
      Except.error Err.indexError := by
  rfl

/-- C8 amended: whenever the names, defaults, and (supplied or inferred)
numbers sequences do not all share one length, schema construction fails
— with the `SchemaMismatch` `ValueError` in the ordinary cases, but with
an `IndexError` in the corner of the counterexample (and a parse
`ValueError` when a default fails to convert first) — and both the writer
and the loader close their transport before propagating the error. -/
theorem get_header_some_copy (header : List Str) (defaults : List Value)
    (ns : List Bool) (hn : header.length = ns.length) :
    get_header header defaults (some ns) true =
      (match convDefaults ns 0 defaults with
       | Except.error e => Except.error e
       | Except.ok defs =>
         if header.length ≠ defs.length then
           Except.error (Err.valueError defaultsSizeMsg)
         else Except.ok (Schema.mk header defs ns)) := by
  unfold get_header
  rw [if_neg (fun hc => hc hn)]
  rfl

theorem C8_mismatch_errors (header : List Str) (defaults : List Value)
    (numbers : Option (List Bool)) (copy : Bool)
    (hmis : ¬ (header.length = defaults.length ∧
      header.length = (match numbers with
                       | none => defaults.length
                       | some ns => ns.length))) :
    (∃ e, get_header header defaults numbers copy = Except.error e) ∧
    (∃ e, writer_init header defaults numbers copy = (Except.error e, true)) ∧
    (∀ lines, ∃ e, loader_init lines (some header) (some defaults) numbers copy =
      (Except.error e, true)) := by
  have hgh : ∃ e, get_header header defaults numbers copy = Except.error e := by
    cases numbers with
    | none =>
      have hne : header.length ≠ (defaults.map is_num).length := by
        rw [List.length_map]
        intro heq
        exact hmis ⟨heq, heq⟩
      refine ⟨Err.valueError numbersSizeMsg, ?_⟩
      unfold get_header
      rw [if_pos hne]
    | some ns =>
      by_cases hn : header.length = ns.length
      · have hd : header.length ≠ defaults.length := by
          intro heq
          exact hmis ⟨heq, hn⟩
        cases copy with
        | false =>
          refine ⟨Err.valueError defaultsSizeMsg, ?_⟩
          unfold get_header
          rw [if_neg (fun hc => hc hn)]
          show (if header.length ≠ defaults.length then
              Except.error (Err.valueError defaultsSizeMsg)
            else Except.ok (Schema.mk header defaults ns)) = _
          rw [if_pos hd]
        | true =>
          rw [get_header_some_copy header defaults ns hn]
          cases hcd : convDefaults ns 0 defaults with
          | error e2 => exact ⟨e2, rfl⟩
          | ok defs =>
            refine ⟨Err.valueError defaultsSizeMsg, ?_⟩
            show (if header.length ≠ defs.length then
                Except.error (Err.valueError defaultsSizeMsg)
              else Except.ok (Schema.mk header defs ns)) = _
            rw [if_pos (by rw [convDefaults_length hcd]; exact hd)]
      · refine ⟨Err.valueError numbersSizeMsg, ?_⟩
        unfold get_header
        rw [if_pos hn]
  obtain ⟨e, he⟩ := hgh
  refine ⟨⟨e, he⟩, ⟨e, ?_⟩, ?_⟩
  · unfold writer_init
    rw [he]
  · intro lines
    refine ⟨e, ?_⟩
    show (match (match get_header header defaults numbers copy with
      | Except.error err => Except.error err
      | Except.ok sch => Except.ok (sch, lines)) with
      | Except.error err => (Except.error err, true)
      | Except.ok x => (Except.ok x, false)) = _
    rw [he]

/-- Witness for the amended C8: names of length 1 against empty defaults
fail. -/
theorem C8_mismatch_errors_witness :
    ∃ e, get_header [['a']] [] none true = Except.error e :=
  (C8_mismatch_errors [['a']] [] none true (by decide)).1

/-! The round-trip: writing a dense row and decoding the resulting line
restores the same sparse mapping. -/

theorem wtRow_parts {sch : Schema} {r : List Value} (h : wtRow sch r = true) :
    r.length = sch.N ∧ ∀ j, j < r.length → wtVal sch j (r.getD j default) = true := by
  unfold wtRow at h
  obtain ⟨h1, h2⟩ := Bool.and_eq_true_iff.mp h
  refine ⟨of_decide_eq_true h1, ?_⟩
  intro j hj
  exact List.all_eq_true.mp h2 j (List.mem_range.mpr hj)

theorem from_dense_ok {sch : Schema} (hwf : sch.wf = true) (hN : 0 < sch.N)
    {V : List Value} (hlen : V.length = sch.N)
    (hwt : ∀ j, j < V.length → wtVal sch j (V.getD j default) = true) :
    from_dense sch V = (none, fdSpec sch 0 V) := by
  have hcv : ∀ j, j < V.length →
      ∃ p, convert sch (0 + j) (V.getD j default) = Except.ok p := by
    intro j hj
    rw [Nat.zero_add]
    exact convert_wt_ok hwf (by omega) (hwt j hj)
  unfold from_dense
  rw [fd_go_ok V 0 [] hcv (by simp)]
  show (match check_range sch ((V.length - 1 : Nat) : Int) with
    | Except.error e => (some e, [] ++ fdSpec sch 0 V)
    | Except.ok _ => (none, [] ++ fdSpec sch 0 V)) = (none, fdSpec sch 0 V)
  rw [check_range_ok (by omega)
    (by omega : ((V.length - 1 : Nat) : Int) < (sch.N : Int))]
  rw [List.nil_append]

theorem write_dense_row_ok {sch : Schema} (hwf : sch.wf = true) (hN : 0 < sch.N)
    {V : List Value} (hlen : V.length = sch.N)
    (hwt : ∀ j, j < V.length → wtVal sch j (V.getD j default) = true) :
    write_dense_row sch V = Except.ok (write_sparse_row (fdSpec sch 0 V)) := by
  unfold write_dense_row
  rw [get_header_nocopy hwf]
  show (match from_dense sch V with
    | (some e, _) => Except.error e
    | (none, m) => Except.ok (write_sparse_row m)) = _
  rw [from_dense_ok hwf hN hlen hwt]

theorem fdSpec_good {sch : Schema} (hwf : sch.wf = true) {V : List Value}
    (hlen : V.length = sch.N)
    (hwt : ∀ j, j < V.length → wtVal sch j (V.getD j default) = true) :
    ∀ p ∈ fdSpec sch 0 V, p.1 < sch.N ∧
      convert sch p.1 (Value.strV (valStr p.2)) = Except.ok (p.2, false) := by
  intro p hp
  obtain ⟨h0, hlt, hcv⟩ := fdSpec_keys V 0 hp
  rw [Nat.zero_add] at hlt
  rw [Nat.sub_zero] at hcv
  have hk : p.1 < sch.N := by omega
  refine ⟨hk, ?_⟩
  have hjwt := hwt p.1 (by omega)
  cases hn : sch.numbers.getD p.1 false with
  | true =>
    obtain ⟨f, hf, hcanf⟩ := wt_num_parse hn hjwt
    rw [convert_num hwf hk hn] at hcv
    rw [hf] at hcv
    have hcv2 : Except.ok (ε := Err) (Value.numV f, eqNum f (dfltF sch p.1)) =
        Except.ok (p.2, false) := hcv
    injection hcv2 with h3
    have hw : Value.numV f = p.2 := congrArg Prod.fst h3
    have hed : eqNum f (dfltF sch p.1) = false := congrArg Prod.snd h3
    rw [← hw]
    show convert sch p.1 (Value.strV (floatToStr f)) =
      Except.ok (Value.numV f, false)
    rw [convert_num hwf hk hn]
    have hparse : np_float64 (Value.strV (floatToStr f)) = some f := by
      show strToFloat (floatToStr f) = some f
      exact strToFloat_floatToStr hcanf
    rw [hparse]
    show Except.ok (Value.numV f, eqNum f (dfltF sch p.1)) = _
    rw [hed]
  | false =>
    obtain ⟨s, hs⟩ := wt_txt_str hn hjwt
    rw [convert_txt hwf hk hn] at hcv
    rw [hs] at hcv
    have hcv2 : Except.ok (ε := Err)
        (Value.strV s, pyEqVal (Value.strV s) (sch.defaults.getD p.1 default)) =
        Except.ok (p.2, false) := hcv
    injection hcv2 with h3
    have hw : Value.strV s = p.2 := congrArg Prod.fst h3
    have hpy : pyEqVal (Value.strV s) (sch.defaults.getD p.1 default) = false :=
      congrArg Prod.snd h3
    rw [← hw]
    show convert sch p.1 (Value.strV s) = Except.ok (Value.strV s, false)
    rw [convert_txt hwf hk hn, hpy]

theorem fdSpec_pairwise {sch : Schema} : ∀ (vs : List Value) (i : Nat),
    List.Pairwise (fun p q => p.1 < q.1) (fdSpec sch i vs) := by
  intro vs
  induction vs with
  | nil =>
    intro i
    simp [fdSpec]
  | cons v vs ih =>
    intro i
    rw [fdSpec_cons]
    cases hc : convert sch i v with
    | error e => exact ih (i + 1)
    | ok p =>
      obtain ⟨v', is_d⟩ := p
      cases is_d with
      | true => exact ih (i + 1)
      | false =>
        refine List.Pairwise.cons ?_ (ih (i + 1))
        intro q hq
        have := (fdSpec_keys vs (i + 1) hq).1
        show i < q.1
        omega

theorem load_row_go_ok {sch : Schema} : ∀ (m acc : RowMap),
    (∀ p ∈ m, p.1 < sch.N ∧
      convert sch p.1 (Value.strV (valStr p.2)) = Except.ok (p.2, false)) →
    List.Pairwise (fun p q => p.1 < q.1) m →
    (∀ p ∈ m, dictGet acc p.1 = none) →
    load_row_go sch (write_sparse_row m) acc = Except.ok (acc ++ m) := by
  intro m
  induction m with
  | nil =>
    intro acc _ _ _
    simp [write_sparse_row, load_row_go]
  | cons p rest ih =>
    intro acc hgood hpw hfresh
    obtain ⟨k, w⟩ := p
    have hws : write_sparse_row ((k, w) :: rest) =
      (natStr k ++ ':' :: valStr w) :: write_sparse_row rest := rfl
    rw [hws]
    unfold load_row_go
    have htok : token_pair (natStr k ++ ':' :: valStr w) =
        Except.ok (Ixv.strIx (natStr k), Value.strV (valStr w)) := by
      unfold token_pair
      rw [splitFirst_append (colon_not_mem_natStr k)]
    obtain ⟨hk, hcv⟩ := hgood (k, w) (List.mem_cons_self _ _)
    have hadd : add_entry sch acc (Ixv.strIx (natStr k)) (Value.strV (valStr w)) =
        Except.ok (dictSet acc k w) := by
      have hpi : pyIntOf (Ixv.strIx (natStr k)) = Except.ok ((k : Nat) : Int) := by
        show (match strToInt (natStr k) with
          | some i => Except.ok i
          | none => Except.error (Err.valueError intMsg)) = _
        rw [strToInt_natStr]
      have hcr : check_range sch ((k : Nat) : Int) = Except.ok () :=
        check_range_ok (by omega) (by omega)
      unfold add_entry
      simp only [hpi, hcr, Int.toNat_natCast, hcv]
      rfl
    simp only [htok, hadd]
    rw [dictSet_fresh (hfresh (k, w) (List.mem_cons_self _ _)) w]
    have hfresh' : ∀ q ∈ rest, dictGet (acc ++ [(k, w)]) q.1 = none := by
      intro q hq
      apply dictGet_none_of_forall
      intro r hr
      rcases List.mem_append.mp hr with hr | hr
      · exact forall_of_dictGet_none (hfresh q (List.mem_cons_of_mem _ hq)) r hr
      · simp only [List.mem_singleton] at hr
        rw [hr]
        have hkq : k < q.1 := (List.pairwise_cons.mp hpw).1 q hq
        show ¬ (k, w).1 = q.1
        omega
    rw [ih (acc ++ [(k, w)])
      (fun q hq => hgood q (List.mem_cons_of_mem _ hq))
      (List.pairwise_cons.mp hpw).2 hfresh']
    rw [List.append_assoc]
    rfl

theorem next_row_fdSpec {sch : Schema} (hwf : sch.wf = true) {V : List Value}
    (hlen : V.length = sch.N)
    (hwt : ∀ j, j < V.length → wtVal sch j (V.getD j default) = true) :
    next_row sch (write_sparse_row (fdSpec sch 0 V)) =
      Except.ok (fdSpec sch 0 V) := by
  unfold next_row
  rw [get_header_nocopy hwf]
  show load_row_go sch (write_sparse_row (fdSpec sch 0 V)) [] = _
  rw [load_row_go_ok (fdSpec sch 0 V) [] (fdSpec_good hwf hlen hwt)
    (fdSpec_pairwise V 0) (fun p _ => rfl)]
  rfl

/-- C1: writing any sequence of well-typed dense rows over a valid schema
(with at least one column) and decoding the resulting lines with the
loader over the same schema yields the same number of rows, in order,
whose dense views are default-equal to the originals: float comparison
(NaN matching NaN) on numeric columns, exact equality on text columns. -/
theorem C1_round_trip (sch : Schema) (hwf : sch.wf = true) (hN : 0 < sch.N)
    (rows : List (List Value)) (hrows : ∀ r ∈ rows, wtRow sch r = true) :
    ∃ lines ms,
      write_rows sch rows = Except.ok lines ∧
      load_rows sch lines = Except.ok ms ∧
      ms.length = rows.length ∧
      ∀ k, k < rows.length →
        (dense_view sch (ms.getD k [])).length = sch.N ∧
        ∀ j, j < sch.N →
          claimEqAt sch j ((dense_view sch (ms.getD k [])).getD j default)
            ((rows.getD k []).getD j default) = true := by
  induction rows with
  | nil =>
    exact ⟨[], [], rfl, rfl, rfl, fun k hk => absurd hk (by simp)⟩
  | cons r rows ih =>
    obtain ⟨lines, ms, hw, hl, hmslen, hcols⟩ :=
      ih (fun q hq => hrows q (List.mem_cons_of_mem _ hq))
    obtain ⟨hrlen, hrwt⟩ := wtRow_parts (hrows r (List.mem_cons_self _ _))
    have hwr := write_dense_row_ok hwf hN hrlen hrwt
    have hnr := next_row_fdSpec hwf hrlen hrwt
    have hw' : rows.mapM (write_dense_row sch) = Except.ok lines := hw
    have hl' : lines.mapM (next_row sch) = Except.ok ms := hl
    refine ⟨write_sparse_row (fdSpec sch 0 r) :: lines, fdSpec sch 0 r :: ms,
      ?_, ?_, ?_, ?_⟩
    · show (r :: rows).mapM (write_dense_row sch) = _
      rw [List.mapM_cons, hwr, hw']
      rfl
    · show (write_sparse_row (fdSpec sch 0 r) :: lines).mapM (next_row sch) = _
      rw [List.mapM_cons, hnr, hl']
      rfl
    · show ms.length + 1 = rows.length + 1
      rw [hmslen]
    · intro k hk
      cases k with
      | zero =>
        refine ⟨dense_view_length sch _, ?_⟩
        intro j hj
        show claimEqAt sch j
          ((dense_view sch (fdSpec sch 0 r)).getD j default)
          (r.getD j default) = true
        rw [dense_view_getD sch _ hj]
        exact claimEq_fdSpec hwf hrlen hrwt hj
      | succ k =>
        have hk' : k < rows.length := by
          have : k + 1 < rows.length + 1 := hk
          omega
        exact hcols k hk'

/-- Witness for C1 at the spec's concrete scenario: two rows over the
schema `names=[a,b]`, `defaults=[0.0, x]`. -/
theorem C1_round_trip_witness :
    ∃ lines ms,
      write_rows ⟨[['a'], ['b']], [Value.numV (F.fin 0 0), Value.strV ['x']],
        [true, false]⟩
        [[Value.numV (F.fin 5 0), Value.strV ['y']],
         [Value.strV ['0'], Value.strV ['x']]] = Except.ok lines ∧
      load_rows ⟨[['a'], ['b']], [Value.numV (F.fin 0 0), Value.strV ['x']],
        [true, false]⟩ lines = Except.ok ms ∧
      ms.length = 2 ∧
      ∀ k, k < 2 →
        (dense_view ⟨[['a'], ['b']], [Value.numV (F.fin 0 0), Value.strV ['x']],
          [true, false]⟩ (ms.getD k [])).length = 2 ∧
        ∀ j, j < 2 →
          claimEqAt ⟨[['a'], ['b']], [Value.numV (F.fin 0 0), Value.strV ['x']],
            [true, false]⟩ j
            ((dense_view ⟨[['a'], ['b']],
              [Value.numV (F.fin 0 0), Value.strV ['x']], [true, false]⟩
              (ms.getD k [])).getD j default)
            (([[Value.numV (F.fin 5 0), Value.strV ['y']],
               [Value.strV ['0'], Value.strV ['x']]].getD k []).getD j default) =
            true :=
  C1_round_trip ⟨[['a'], ['b']], [Value.numV (F.fin 0 0), Value.strV ['x']],
    [true, false]⟩ (by decide) (by decide)
    [[Value.numV (F.fin 5 0), Value.strV ['y']],
     [Value.strV ['0'], Value.strV ['x']]]
    (by intro r hr; fin_cases hr <;> decide)

end MatrixIO
